import Mathlib

/-!
Verification of the rental-listing parser (`result.py`).

The pure core of the program — label normalization, address splitting,
facing/feature encoding, composite splits, rent parsing, derived fees and
image slot collection — is embedded shallowly below.  HTML retrieval and
soup construction are external collaborators: a parsed document is
modelled by the value the label extractor returns for each caption label
together with the list of image elements.  Python strings are Lean
strings (sequences of unicode scalars); Python float arithmetic on the
monetary values is modelled as exact rational arithmetic, and
`round(x, 0)` as round-half-to-even.
-/

/-- A value stored in the output record: Python `None`, a string, or a
number (the derived fee fields, rounded floats). -/
inductive Val where
  | null : Val
  | s : String → Val
  | f : ℚ → Val
deriving DecidableEq

/-- The output record: an insertion-ordered dictionary from keys to
values, as a Python `dict` is.  The parser never creates duplicate
keys. -/
abbrev Record := List (String × Val)

/-- The keys of a record, in insertion order. -/
def keysOf (d : Record) : List String := d.map Prod.fst

/-- Python `data.get(k)`: the value stored at `k`, `None` when absent. -/
def rget (d : Record) (k : String) : Val :=
  match d with
  | [] => Val.null
  | kv :: rest => if kv.1 = k then kv.2 else rget rest k

/-- Assignment `data[k] = v`: replace in place when the key exists (a Python dict
keeps the key's original position), append otherwise. -/
def rset (d : Record) (k : String) (v : Val) : Record :=
  match d with
  | [] => [(k, v)]
  | kv :: rest => if kv.1 = k then (k, v) :: rest else kv :: rset rest k v

/-- A sequence of `data[k] = v` assignments, applied left to right. -/
def rsets (d : Record) (kvs : List (String × Val)) : Record :=
  kvs.foldl (fun d kv => rset d kv.1 kv.2) d

/-- The value the last assignment in `kvs` gives to `k`, if any. -/
def lastLookup : List (String × Val) → String → Option Val
  | [], _ => none
  | kv :: rest, k =>
    match lastLookup rest k with
    | some v => some v
    | none => if kv.1 = k then some kv.2 else none

theorem keysOf_rset_of_mem (d : Record) (k : String) (v : Val)
    (h : k ∈ keysOf d) : keysOf (rset d k v) = keysOf d := by
  induction d with
  | nil => simp [keysOf] at h
  | cons kv rest ih =>
    by_cases hkv : kv.1 = k
    · simp [rset, hkv, keysOf]
    · have h' : k ∈ keysOf rest := by
        simp only [keysOf, List.map_cons, List.mem_cons] at h
        rcases h with h | h
        · exact absurd h.symm hkv
        · simpa [keysOf] using h
      have := ih h'
      simp only [keysOf] at this
      simp [rset, hkv, keysOf, this]

theorem keysOf_rset_of_not_mem (d : Record) (k : String) (v : Val)
    (h : k ∉ keysOf d) : keysOf (rset d k v) = keysOf d ++ [k] := by
  induction d with
  | nil => simp [rset, keysOf]
  | cons kv rest ih =>
    simp only [keysOf, List.map_cons, List.mem_cons, not_or] at h
    have hne : ¬kv.1 = k := fun hc => h.1 hc.symm
    have := ih (by simpa [keysOf] using h.2)
    simp only [keysOf] at this
    simp [rset, hne, keysOf, this]

theorem rget_rset_self (d : Record) (k : String) (v : Val) :
    rget (rset d k v) k = v := by
  induction d with
  | nil => simp [rset, rget]
  | cons kv rest ih =>
    by_cases hkv : kv.1 = k
    · simp [rset, hkv, rget]
    · simp [rset, hkv, rget, ih]

theorem rget_rset_of_ne (d : Record) (k k' : String) (v : Val)
    (h : k' ≠ k) : rget (rset d k v) k' = rget d k' := by
  have hne : ¬k = k' := fun hc => h hc.symm
  induction d with
  | nil => simp [rset, rget, hne]
  | cons kv rest ih =>
    by_cases hkv : kv.1 = k
    · have hkv' : ¬kv.1 = k' := by rw [hkv]; exact hne
      simp [rset, hkv, rget, hne, hkv']
    · by_cases hkv' : kv.1 = k'
      · simp only [rset, if_neg hkv]
        simp [rget, hkv']
      · simp only [rset, if_neg hkv]
        simp [rget, hkv', ih]

theorem rget_rsets (d : Record) (kvs : List (String × Val)) (k : String) :
    rget (rsets d kvs) k =
      match lastLookup kvs k with
      | some v => v
      | none => rget d k := by
  induction kvs generalizing d with
  | nil => simp [rsets, lastLookup]
  | cons kv rest ih =>
    show rget (rsets (rset d kv.1 kv.2) rest) k = _
    rw [ih]
    cases h : lastLookup rest k with
    | some v => simp [lastLookup, h]
    | none =>
      by_cases hkv : kv.1 = k
      · simp [lastLookup, h, hkv, rget_rset_self]
      · simp [lastLookup, h, hkv, rget_rset_of_ne _ _ _ _ (Ne.symm hkv)]

theorem lastLookup_eq_none_of_not_mem (kvs : List (String × Val)) (k : String)
    (h : k ∉ kvs.map Prod.fst) : lastLookup kvs k = none := by
  induction kvs with
  | nil => rfl
  | cons kv rest ih =>
    simp only [List.map_cons, List.mem_cons, not_or] at h
    unfold lastLookup
    rw [ih h.2, if_neg (fun hc => h.1 hc.symm)]

theorem rget_rsets_of_not_mem (d : Record) (kvs : List (String × Val)) (k : String)
    (h : k ∉ kvs.map Prod.fst) : rget (rsets d kvs) k = rget d k := by
  rw [rget_rsets, lastLookup_eq_none_of_not_mem kvs k h]

theorem keysOf_rsets_of_sub (d : Record) (kvs : List (String × Val))
    (h : ∀ kv ∈ kvs, kv.1 ∈ keysOf d) : keysOf (rsets d kvs) = keysOf d := by
  induction kvs generalizing d with
  | nil => rfl
  | cons kv rest ih =>
    show keysOf (rsets (rset d kv.1 kv.2) rest) = _
    have hkeys : keysOf (rset d kv.1 kv.2) = keysOf d :=
      keysOf_rset_of_mem d kv.1 kv.2 (h kv (by simp))
    rw [ih (rset d kv.1 kv.2) (fun p hp => hkeys ▸ h p (by simp [hp])), hkeys]

/-- ASCII digit test. -/
def isAsciiDigit (c : Char) : Bool := '0' ≤ c && c ≤ '9'

/-- Python regex `\d` matches Unicode decimal digits; ASCII and the
fullwidth digits that occur in Japanese text are modelled. -/
def isPyDigit (c : Char) : Bool := isAsciiDigit c || ('０' ≤ c && c ≤ '９')

/-- Terminator class `[都道府県]` of the prefecture regex. -/
def isPrefTerm (c : Char) : Bool := c = '都' || c = '道' || c = '府' || c = '県'

/-- Terminator class `[市区町村]` of the municipality regex. -/
def isCityTerm (c : Char) : Bool := c = '市' || c = '区' || c = '町' || c = '村'

/-- Model of `re.match(r"^(.*?[T])", s)`: the lazy group matches the shortest
prefix ending in a terminator; `.` does not match a newline, so the
match fails if a newline occurs before every terminator. -/
def lazyGroup (isTerm : Char → Bool) : List Char → Option (List Char)
  | [] => none
  | c :: cs =>
    if isTerm c then some [c]
    else if c = '\n' then none
    else match lazyGroup isTerm cs with
      | some g => some (c :: g)
      | none => none

/-- Truthiness of an optional string, over its characters: Python treats
both `None` and the empty string as false. -/
def truthyL : Option (List Char) → Bool
  | none => false
  | some l => !l.isEmpty

/-- Step `remaining = remaining[len(m):] if m else remaining`. -/
def stageRest (m : Option (List Char)) (r : List Char) : List Char :=
  if truthyL m then r.drop (m.getD []).length else r

/-- The body of `parse_japanese_address` over the character list of the
address (result.py lines 117-133). -/
def splitAddr (a : List Char) :
    Option (List Char) × Option (List Char) × Option (List Char) × List Char :=
  let prefecture := lazyGroup isPrefTerm a
  let remaining := stageRest prefecture a
  let city := lazyGroup isCityTerm remaining
  let remaining2 := stageRest city remaining
  let dgroup := remaining2.takeWhile (fun c => !isPyDigit c)
  let district := if dgroup.isEmpty then none else some dgroup
  let chome := stageRest district remaining2
  (prefecture, city, district, chome)

/-- Function `parse_japanese_address`: split a Japanese address into prefecture,
city, district and chome/banchi, the first three `None` when their
terminator never occurs (result.py lines 117-133). -/
def parse_japanese_address (address : String) :
    Option String × Option String × Option String × String :=
  let r := splitAddr address.data
  (r.1.map (⟨·⟩), r.2.1.map (⟨·⟩), r.2.2.1.map (⟨·⟩), (⟨r.2.2.2⟩ : String))

theorem lazyGroup_ne_nil (t : Char → Bool) (cs : List Char) (g : List Char)
    (h : lazyGroup t cs = some g) : g ≠ [] := by
  induction cs generalizing g with
  | nil => simp [lazyGroup] at h
  | cons c cs ih =>
    simp only [lazyGroup] at h
    split at h
    · injection h with h
      simp [← h]
    · split at h
      · exact absurd h (by simp)
      · split at h
        · injection h with h
          simp [← h]
        · exact absurd h (by simp)

theorem lazyGroup_append_drop (t : Char → Bool) (cs : List Char) (g : List Char)
    (h : lazyGroup t cs = some g) : g ++ cs.drop g.length = cs := by
  induction cs generalizing g with
  | nil => simp [lazyGroup] at h
  | cons c cs ih =>
    simp only [lazyGroup] at h
    split at h
    · injection h with h
      simp [← h]
    · split at h
      · exact absurd h (by simp)
      · split at h
        · rename_i g' hg
          injection h with h
          subst h
          simpa using ih g' hg
        · exact absurd h (by simp)

theorem takeWhile_append_drop (p : Char → Bool) (l : List Char) :
    l.takeWhile p ++ l.drop (l.takeWhile p).length = l := by
  induction l with
  | nil => simp
  | cons c cs ih =>
    by_cases hc : p c
    · simpa [List.takeWhile, hc] using ih
    · simp [List.takeWhile, hc]

theorem stage_lazy (t : Char → Bool) (r : List Char) :
    (lazyGroup t r).getD [] ++ stageRest (lazyGroup t r) r = r := by
  cases h : lazyGroup t r with
  | none => simp [stageRest, truthyL]
  | some g =>
    have hne := lazyGroup_ne_nil t r g h
    simp only [stageRest, truthyL, Option.getD_some]
    rw [if_pos (by simp [List.isEmpty_iff, hne])]
    exact lazyGroup_append_drop t r g h

theorem stage_take (r : List Char) :
    (if (r.takeWhile (fun c => !isPyDigit c)).isEmpty then none
      else some (r.takeWhile (fun c => !isPyDigit c))).getD [] ++
    stageRest (if (r.takeWhile (fun c => !isPyDigit c)).isEmpty then none
      else some (r.takeWhile (fun c => !isPyDigit c))) r = r := by
  cases hg : r.takeWhile (fun c => !isPyDigit c) with
  | nil => simp [stageRest, truthyL]
  | cons c cs =>
    have h := takeWhile_append_drop (fun c => !isPyDigit c) r
    rw [hg] at h
    simpa [stageRest, truthyL] using h

/-- List-level round trip for the address splitter. -/
theorem splitAddr_roundtrip (a : List Char) :
    (splitAddr a).1.getD [] ++ ((splitAddr a).2.1.getD [] ++
    ((splitAddr a).2.2.1.getD [] ++ (splitAddr a).2.2.2)) = a := by
  simp only [splitAddr]
  rw [stage_take, stage_lazy, stage_lazy]

theorem optStr_map_mk (o : Option (List Char)) :
    (o.map (fun l => (⟨l⟩ : String))).getD "" = ⟨o.getD []⟩ := by
  cases o <;> rfl

/-- C1: for every address string, concatenating the four outputs of
`parse_japanese_address` — prefecture, city, district, remainder — in
that order, treating null components as the empty string, reproduces
the original address string exactly. -/
theorem parse_japanese_address_roundtrip (address : String) :
    ((parse_japanese_address address).1.getD "") ++
    ((parse_japanese_address address).2.1.getD "") ++
    ((parse_japanese_address address).2.2.1.getD "") ++
    (parse_japanese_address address).2.2.2 = address := by
  obtain ⟨a⟩ := address
  have h := splitAddr_roundtrip a
  simp only [parse_japanese_address, optStr_map_mk]
  show (⟨((((splitAddr a).1.getD [] ++ (splitAddr a).2.1.getD []) ++
      (splitAddr a).2.2.1.getD []) ++ (splitAddr a).2.2.2)⟩ : String) = ⟨a⟩
  rw [List.append_assoc, List.append_assoc]
  exact congrArg _ h

/-! ### Python string primitives -/

/-- Unicode whitespace stripped by Python `str.strip()`; the common
whitespace characters are modelled. -/
def isPySpace (c : Char) : Bool :=
  c = ' ' || c = '\t' || c = '\n' || c = '\r' || c = '\x0b' || c = '\x0c' ||
  c = ' ' || c = '　'

/-- Python `str.strip()` over characters. -/
def stripL (l : List Char) : List Char :=
  ((l.dropWhile isPySpace).reverse.dropWhile isPySpace).reverse

/-- Python `str.strip()`. -/
def pyStrip (s : String) : String := ⟨stripL s.data⟩

/-- Python `str.split(sep)` for a one-character separator, over characters;
every separator in this program is a single character. -/
def splitChar (sep : Char) : List Char → List (List Char)
  | [] => [[]]
  | c :: cs =>
    if c = sep then [] :: splitChar sep cs
    else match splitChar sep cs with
      | [] => [[c]]
      | t :: ts => (c :: t) :: ts

/-- Python `str.split(sep)` for a one-character separator. -/
def pySplit (sep : Char) (s : String) : List String :=
  (splitChar sep s.data).map (fun l => (⟨l⟩ : String))

/-- Python `pat in s` over characters. -/
def subAt (pat : List Char) : List Char → Bool
  | [] => pat.isEmpty
  | c :: cs => pat.isPrefixOf (c :: cs) || subAt pat cs

/-- Python `pat in s`. -/
def pyContains (s : String) (pat : String) : Bool := subAt pat.data s.data

/-- Python `str.replace(pat, rep)` over characters, leftmost non-overlapping,
with the list length as recursion fuel (a nonempty pattern consumes at
least one character per step, so the fuel suffices). -/
def replaceGo (pat rep : List Char) : Nat → List Char → List Char
  | _, [] => []
  | 0, l => l
  | fuel + 1, c :: cs =>
    if pat.isPrefixOf (c :: cs) then
      rep ++ replaceGo pat rep fuel (List.drop (pat.length - 1) cs)
    else c :: replaceGo pat rep fuel cs

/-- Python `s.replace(pat, rep)`. -/
def pyReplace (s pat rep : String) : String :=
  ⟨replaceGo pat.data rep.data s.data.length s.data⟩

/-- Python `s.startswith(c)` for a one-character argument. -/
def pyStartsWith (s : String) (c : Char) : Bool :=
  match s.data with
  | [] => false
  | a :: _ => a = c

/-! ### Python float parsing and rounding -/

/-- Accumulate a run of ASCII digits: value, digit count, rest. -/
def readDigitsAcc : Nat → Nat → List Char → Nat × Nat × List Char
  | acc, cnt, [] => (acc, cnt, [])
  | acc, cnt, c :: cs =>
    if isAsciiDigit c then readDigitsAcc (acc * 10 + (c.toNat - 48)) (cnt + 1) cs
    else (acc, cnt, c :: cs)

/-- An optional leading sign; `true` means negative. -/
def readSign : List Char → Bool × List Char
  | '+' :: r => (false, r)
  | '-' :: r => (true, r)
  | r => (false, r)

/-- An optional fraction part after the integer digits. -/
def readFrac : List Char → Nat × Nat × List Char
  | '.' :: r => readDigitsAcc 0 0 r
  | r => (0, 0, r)

/-- Sign and digits of an exponent; `none` unless at least one digit
and nothing follows. -/
def readExpDigits (r : List Char) : Option Int :=
  let s := readSign r
  let d := readDigitsAcc 0 0 s.2
  if d.2.1 = 0 then none
  else match d.2.2 with
    | [] => some (if s.1 then -(d.1 : Int) else (d.1 : Int))
    | _ => none

/-- The optional exponent marker and its digits; `some 0` at the end of
input, `none` on trailing garbage. -/
def readExp : List Char → Option Int
  | [] => some 0
  | 'e' :: r => readExpDigits r
  | 'E' :: r => readExpDigits r
  | _ => none

/-- A parsed decimal literal: sign, integer part, fraction value and
digit count, exponent. -/
structure FloatLit where
  neg : Bool
  ip : Nat
  fp : Nat
  fc : Nat
  ex : Int
deriving DecidableEq

/-- The decimal-literal grammar accepted by Python `float()` (optional
sign, digits with an optional fraction, optional exponent, surrounding
whitespace).  Underscore digit separators and the `inf`/`nan` literals
are outside the model. -/
def parseFloatLit (s : String) : Option FloatLit :=
  let cs := stripL s.data
  let sg := readSign cs
  let ipart := readDigitsAcc 0 0 sg.2
  let fpart := readFrac ipart.2.2
  if ipart.2.1 + fpart.2.1 = 0 then none
  else match readExp fpart.2.2 with
    | some ex => some ⟨sg.1, ipart.1, fpart.1, fpart.2.1, ex⟩
    | none => none

/-- The rational value of a parsed decimal literal; Python float
arithmetic is modelled as exact rational arithmetic. -/
def FloatLit.val (l : FloatLit) : ℚ :=
  (if l.neg then -1 else 1) * ((l.ip : ℚ) + (l.fp : ℚ) / (10 : ℚ) ^ l.fc) * (10 : ℚ) ^ l.ex

/-- Python `float(s)`, `none` on `ValueError`. -/
def pyFloat (s : String) : Option ℚ := (parseFloatLit s).map FloatLit.val

/-- Python `round(x, 0)`: round half to even, by integer arithmetic on
the rational's numerator and denominator. -/
def roundHalfEven (q : ℚ) : Int :=
  let fl := q.floor
  let twice := 2 * q.num - 2 * fl * (q.den : Int)
  if twice < (q.den : Int) then fl
  else if (q.den : Int) < twice then fl + 1
  else if fl % 2 = 0 then fl else fl + 1

theorem roundHalfEven_intCast (z : ℤ) : roundHalfEven (z : ℚ) = z := by
  have hf : (z : ℚ).floor = z := by
    rw [Rat.floor_def', Rat.num_intCast, Rat.den_intCast]
    simp
  simp only [roundHalfEven, hf, Rat.num_intCast, Rat.den_intCast]
  norm_num

/-! ### Mapping tables (result.py lines 8-104), in declaration order -/

/-- Japanese caption label to output key. -/
def UI_MAPPING : List (String × String) := [
  ("物件名", "building_name_ja"),
  ("種別", "building_type"),
  ("建物構造", "structure"),
  ("所在地", "address"),
  ("築年月", "year"),
  ("部屋番号", "unit_no"),
  ("所在階/階建", "floor_no/floors"),
  ("間取り（タイプ）", "room_type"),
  ("専有面積", "size"),
  ("方位", "facing"),
  ("賃料", "monthly_rent"),
  ("管理費・共益費", "monthly_maintenance"),
  ("敷金/保証金", "deposit/security_deposit"),
  ("礼金/償却・敷引", "key_money/amortization"),
  ("更新料", "months_renewal"),
  ("保険料", "fire_insurance"),
  ("フリーレント", "discount"),
  ("入居可能日", "available_from"),
  ("退去時費用", "other_initial_fees"),
  ("ペット可区分", "pets"),
  ("備考", "property_notes"),
  ("設備・条件", "features")]

/-- Japanese feature token to boolean-flag output key. -/
def FEATURES_MAPPING : List (String × String) := [
  ("壁掛けｴｱｺﾝ1台", "aircon"),
  ("エアコン暖房付き", "aircon_heater"),
  ("オール電化", "all_electric"),
  ("自動お湯張り", "auto_fill_bath"),
  ("バルコニー", "balcony"),
  ("浴室", "bath"),
  ("浴室乾燥機能", "bath_water_heater"),
  ("ブラインド", "blinds"),
  ("BS対応可", "bs"),
  ("ケーブルテレビ", "cable"),
  ("カーペット", "carpet"),
  ("清掃サービス", "cleaning_service"),
  ("カウンターキッチン", "counter_kitchen"),
  ("食器洗浄機", "dishwasher"),
  ("カーテン", "drapes"),
  ("女性専用", "female_only"),
  ("暖炉", "fireplace"),
  ("フローリング", "flooring"),
  ("フルキッチン", "full_kitchen"),
  ("家具付き", "furnished"),
  ("ガス", "gas"),
  ("IHクッキングヒーター", "induction_cooker"),
  ("インターネット無料", "internet_broadband"),
  ("Wi-Fi", "internet_wifi"),
  ("温水洗浄便座", "japanese_toilet"),
  ("リネン", "linen"),
  ("ロフト", "loft"),
  ("電子レンジ", "microwave"),
  ("オーブン", "oven"),
  ("電話回線", "phoneline"),
  ("コンロ", "range"),
  ("冷蔵庫", "refrigerator"),
  ("冷蔵庫/冷凍庫", "refrigerator_freezer"),
  ("屋上バルコニー", "roof_balcony"),
  ("トイレ別", "separate_toilet"),
  ("シャワー", "shower"),
  ("SOHO可", "soho"),
  ("収納", "storage"),
  ("学生向け", "student_friendly"),
  ("システムキッチン", "system_kitchen"),
  ("畳", "tatami"),
  ("床暖房", "underfloor_heating"),
  ("ユニットバス", "unit_bath"),
  ("調理器具付き", "utensils_cutlery"),
  ("ベランダ", "veranda"),
  ("洗濯機/乾燥機", "washer_dryer"),
  ("洗濯機置場", "washing_machine"),
  ("ウォシュレット", "washlet"),
  ("洋式トイレ", "western_toilet")]

/-- Facing-direction label to one-hot output key. -/
def JP_TO_EN_FACING : List (String × String) := [
  ("北", "facing_north"),
  ("北東", "facing_northeast"),
  ("東", "facing_east"),
  ("南東", "facing_southeast"),
  ("南", "facing_south"),
  ("南西", "facing_southwest"),
  ("西", "facing_west"),
  ("北西", "facing_northwest")]

/-- The eight one-hot facing keys, in table order. -/
def FACING_KEYS : List String := JP_TO_EN_FACING.map Prod.snd

/-- Feature keys always forced to "Y". -/
def DEFAULT_FEATURES : List String := [
  "aircon", "aircon_heater", "bs", "internet_broadband", "phoneline",
  "flooring", "system_kitchen", "bath", "shower", "unit_bath",
  "western_toilet", "credit_card"]

/-- Python `dict.get` on an association table with unique keys. -/
def lookupA : List (String × String) → String → Option String
  | [], _ => none
  | p :: rest, k => if p.1 = k then some p.2 else lookupA rest k

/-! ### The document model -/

/-- An image element: the three URL attribute sources and the
alternative text, each possibly absent. -/
structure Img where
  src : Option String
  dataSrc : Option String
  dataLazy : Option String
  alt : Option String
deriving DecidableEq

/-- A parsed HTML document, seen through the two interfaces the core
uses: `get_value_by_label` (the trimmed text paired with a caption
label, `none` when no dt/dd or th/td pair matches) and the list of
`img` elements in document order.  Fetching and soup construction are
external collaborators. -/
structure Doc where
  labelValue : String → Option String
  images : List Img

/-- Truthiness of an optional string value (`if not value: continue`). -/
def truthyS : Option String → Bool
  | none => false
  | some s => decide (s ≠ "")

/-! ### The field normalizer (result.py lines 166-215) -/

/-- An optional string as a record value (`None` stays null). -/
def ovVal : Option String → Val
  | none => Val.null
  | some x => Val.s x

/-- Normalize one part of the deposit/key-money composites: a stripped
part equal to the placeholder dash becomes "0". -/
def normPart (p : String) : String := if pyStrip p = "-" then "0" else pyStrip p

/-- The value the rent branch stores: the part before the wave dash,
stripped, when the separator occurs; the value unchanged otherwise. -/
def rentStored (value : String) : String :=
  if pyContains value "〜" then pyStrip ((pySplit '〜' value).headD "") else value

/-- The sequence of `data[...] = ...` assignments one `(label, key)`
entry performs on a non-empty extracted value: the special-case
dispatch of result.py lines 172-215.  Each branch's assignments are
listed in program order; no branch reads a key it writes. -/
def pairsFor (out : String) (value : String) : List (String × Val) :=
  if out = "address" then
    let r := splitAddr value.data
    [("prefecture", ovVal (r.1.map (⟨·⟩))),
     ("city", ovVal (r.2.1.map (⟨·⟩))),
     ("district", ovVal (r.2.2.1.map (⟨·⟩))),
     ("chome_banchi", Val.s ⟨r.2.2.2⟩)]
  else if out = "facing" then
    (JP_TO_EN_FACING.map (fun p => (p.2, Val.s "N"))) ++
      (match lookupA JP_TO_EN_FACING (pyStrip value) with
       | some key_name => [(key_name, Val.s "Y")]
       | none => [])
  else if out = "features" then
    let features_list := (pySplit '、' value).map pyStrip
    (FEATURES_MAPPING.map (fun p =>
      (p.2, Val.s (if features_list.contains p.1 then "Y" else "N")))) ++
      DEFAULT_FEATURES.map (fun key => (key, Val.s "Y"))
  else if out = "floor_no/floors" then
    let parts := pySplit '/' value
    [("floor_no", match parts.get? 0 with
       | some p => Val.s (pyStrip p)
       | none => Val.null),
     ("floors", match parts.get? 1 with
       | some p => Val.s (pyStrip p)
       | none => Val.null)]
  else if out = "deposit/security_deposit" then
    let parts := pySplit '/' value
    if parts.length = 2 then
      [("months_security_deposit", Val.s (normPart (parts.headD ""))),
       ("numeric_security_deposit", Val.s (normPart ((parts.get? 1).getD "")))]
    else []
  else if out = "key_money/amortization" then
    let parts := pySplit '/' value
    if parts.length = 2 then
      [("months_key", Val.s (normPart (parts.headD ""))),
       ("numeric_key", Val.s (normPart ((parts.get? 1).getD "")))]
    else []
  else if out = "monthly_rent" then
    [("monthly_rent", Val.s (rentStored value))]
  else [(out, Val.s value)]

/-- One iteration of the `for jp_label, output_key in UI_MAPPING.items()`
loop: skip when the extracted value is `None` or empty, otherwise apply
the entry's assignments. -/
def applyEntry (doc : Doc) (d : Record) (p : String × String) : Record :=
  match doc.labelValue p.1 with
  | none => d
  | some v => if v = "" then d else rsets d (pairsFor p.2 v)

/-! ### The derived-value calculator (result.py lines 217-232) -/

/-- A record value as the optional string Python sees in
`data.get("monthly_rent")`; the field is only ever null or a string at
that point. -/
def valStr : Val → Option String
  | Val.s v => some v
  | _ => none

/-- The `rent_str` normalization of line 222: the part before the wave
dash, the currency suffix and thousands separators removed, stripped. -/
def rentNormalized (v : String) : String :=
  pyStrip (pyReplace (pyReplace ((pySplit '〜' v).headD "") "万円" "") "," "")

/-- Lines 218-225: parse the numeric rent in yen; the placeholder dash,
an absent value or a parse failure yield zero. -/
def computeRent (mr : Option String) : ℚ :=
  match mr with
  | none => 0
  | some v =>
    if v = "" ∨ v = "-" then 0
    else match pyFloat (rentNormalized v) with
      | some q => q * 10000
      | none => 0

/-- Python truthiness of a record value: `None`, the empty string and
numeric zero are falsy. -/
def falsyV : Val → Bool
  | Val.null => true
  | Val.s v => decide (v = "")
  | Val.f q => decide (q = 0)

/-- Lines 227-232: fill the three derived fee fields when not already
set; `round(x, 0)` returns a float, modelled as the rational value of
the rounded integer. -/
def applyFees (d : Record) : Record :=
  let rent := computeRent (valStr (rget d "monthly_rent"))
  let d1 := if falsyV (rget d "months_guarantor") then
      rset d "months_guarantor" (Val.f ((roundHalfEven (rent * 0.5) : ℤ) : ℚ)) else d
  let d2 := if falsyV (rget d1 "numeric_guarantor") then
      rset d1 "numeric_guarantor" (Val.f ((roundHalfEven (rent * 1.0) : ℤ) : ℚ)) else d1
  if falsyV (rget d2 "months_agency") then
    rset d2 "months_agency" (Val.f ((roundHalfEven (rent * 1.1) : ℤ) : ℚ)) else d2

/-! ### The image collector (result.py lines 135-154) -/

/-- The fixed site origin prefixed to root-relative URLs. -/
def SITE_ORIGIN : String := "https://rent.tokyu-housing-lease.co.jp"

/-- The category key of image slot `n`. -/
def catKey (n : Nat) : String := "image_category_" ++ toString n

/-- The URL key of image slot `n`. -/
def urlKey (n : Nat) : String := "image_url_" ++ toString n

/-- Chain `img.get("src") or img.get("data-src") or img.get("data-lazy")`:
the first truthy of the three attribute sources (an empty attribute is
falsy and passed over). -/
def imgRawUrl (im : Img) : Option String :=
  if truthyS im.src then im.src
  else if truthyS im.dataSrc then im.dataSrc
  else im.dataLazy

/-- Resolve a root-relative URL against the site origin. -/
def resolveUrl (u : String) : String :=
  if pyStartsWith u '/' then SITE_ORIGIN ++ u else u

/-- Category `img.get("alt") or "None"`. -/
def imgCategory (im : Img) : String :=
  if truthyS im.alt then im.alt.getD "" else "None"

/-- The image elements that consume a slot: those whose resolved raw
URL is truthy. -/
def validImgs (imgs : List Img) : List Img :=
  imgs.filter (fun im => truthyS (imgRawUrl im))

/-- The collection loop of `parse_images`: walk the image elements,
stop at `maxI` collected, skip elements with no truthy URL source,
store category and URL under the 1-based slot of each collected image.
Returns the updated record and the final count. -/
def collectGo (maxI : Nat) : List Img → Nat → Record → Record × Nat
  | [], count, d => (d, count)
  | im :: rest, count, d =>
    if maxI ≤ count then (d, count)
    else if truthyS (imgRawUrl im) then
      let c := count + 1
      collectGo maxI rest c
        (rset (rset d (catKey c) (Val.s (imgCategory im)))
          (urlKey c) (Val.s (resolveUrl ((imgRawUrl im).getD ""))))
    else collectGo maxI rest count d

/-- The padding loop: set both keys of each remaining slot to null. -/
def fillSlots (d : Record) : List Nat → Record
  | [] => d
  | i :: rest => fillSlots (rset (rset d (catKey i) Val.null) (urlKey i) Val.null) rest

/-- Function `parse_images(soup, data, max_images=16)` (result.py lines
135-154). -/
def parse_images (imgs : List Img) (d : Record) (maxI : Nat) : Record :=
  let r := collectGo maxI imgs 0 d
  fillSlots r.1 (List.range' (r.2 + 1) (maxI - r.2))

/-! ### The output schema and `parse_property` -/

/-- Modelled from the spec: `OUTPUT_KEYS` is imported from `fields.py`,
which is not part of the sources; the spec fixes it as the declared flat
output schema — every schema key the parser writes or leaves null.
Reconstructed as: the plain mapped keys, the four address components,
the eight facing keys, the feature-flag keys (the mapped features plus
`credit_card` from the default set), the composite sub-keys and the
three derived fee keys. -/
def OUTPUT_KEYS : List String :=
  ["building_name_ja", "building_type", "structure", "year", "unit_no",
   "room_type", "size", "monthly_rent", "monthly_maintenance",
   "months_renewal", "fire_insurance", "discount", "available_from",
   "other_initial_fees", "pets", "property_notes",
   "prefecture", "city", "district", "chome_banchi",
   "floor_no", "floors",
   "months_security_deposit", "numeric_security_deposit",
   "months_key", "numeric_key",
   "months_guarantor", "numeric_guarantor", "months_agency"] ++
  FACING_KEYS ++ FEATURES_MAPPING.map Prod.snd ++ ["credit_card"]

/-- Function `parse_property(url)` after a successful fetch (result.py lines
156-237): `doc` is the parsed document and `create_date` the formatted
`datetime.now()` timestamp, both inputs of the pure core. -/
def parse_property (url : String) (create_date : String) (doc : Doc) : Record :=
  let data : Record := OUTPUT_KEYS.map (fun key => (key, Val.null))
  let data := rset data "link" (Val.s url)
  let data := rset data "create_date" (Val.s create_date)
  let data := UI_MAPPING.foldl (applyEntry doc) data
  let data := applyFees data
  parse_images doc.images data 16

/-! ### Key-tracking infrastructure -/

/-- A superset of the keys entry `out` can write, fixed per output key. -/
def entryKeyBound (out : String) : List String :=
  if out = "address" then ["prefecture", "city", "district", "chome_banchi"]
  else if out = "facing" then FACING_KEYS
  else if out = "features" then FEATURES_MAPPING.map Prod.snd ++ DEFAULT_FEATURES
  else if out = "floor_no/floors" then ["floor_no", "floors"]
  else if out = "deposit/security_deposit" then
    ["months_security_deposit", "numeric_security_deposit"]
  else if out = "key_money/amortization" then ["months_key", "numeric_key"]
  else if out = "monthly_rent" then ["monthly_rent"]
  else [out]

theorem lookupA_mem_snd (l : List (String × String)) (x k : String)
    (h : lookupA l x = some k) : k ∈ l.map Prod.snd := by
  induction l with
  | nil => simp [lookupA] at h
  | cons p rest ih =>
    simp only [lookupA] at h
    split at h
    · injection h with h
      simp [← h]
    · simp [ih h]

theorem pairsFor_keys_sub (out value : String) :
    ∀ kv ∈ pairsFor out value, kv.1 ∈ entryKeyBound out := by
  intro kv hkv
  unfold pairsFor at hkv
  unfold entryKeyBound
  split_ifs at hkv ⊢ with h1 h2 h3 h4 h5 h6 h7
  · fin_cases hkv <;> simp
  · rcases List.mem_append.1 hkv with hm | hm
    · rcases List.mem_map.1 hm with ⟨q, hq, hkv'⟩
      subst hkv'
      exact List.mem_map.2 ⟨q, hq, rfl⟩
    · cases hl : lookupA JP_TO_EN_FACING (pyStrip value) with
      | none => rw [hl] at hm; simp at hm
      | some key_name =>
        rw [hl] at hm
        simp only [List.mem_singleton] at hm
        subst hm
        exact lookupA_mem_snd _ _ _ hl
  · rcases List.mem_append.1 hkv with hm | hm
    · rcases List.mem_map.1 hm with ⟨q, hq, hkv'⟩
      subst hkv'
      exact List.mem_append.2 (Or.inl (List.mem_map.2 ⟨q, hq, rfl⟩))
    · rcases List.mem_map.1 hm with ⟨q, hq, hkv'⟩
      subst hkv'
      exact List.mem_append.2 (Or.inr hq)
  · fin_cases hkv <;> simp
  · simp only [] at hkv
    split at hkv
    · fin_cases hkv
      · simp
      · simp
    · simp at hkv
  · simp only [] at hkv
    split at hkv
    · fin_cases hkv
      · simp
      · simp
    · simp at hkv
  · fin_cases hkv <;> simp
  · fin_cases hkv <;> simp

theorem applyEntry_skip (doc : Doc) (d : Record) (p : String × String)
    (h : truthyS (doc.labelValue p.1) = false) : applyEntry doc d p = d := by
  unfold applyEntry
  cases hl : doc.labelValue p.1 with
  | none => rfl
  | some v =>
    rw [hl] at h
    simp only [truthyS, decide_eq_false_iff_not, not_not] at h
    simp [h]

theorem rget_applyEntry_of_not_mem (doc : Doc) (d : Record) (p : String × String)
    (k : String) (h : k ∉ entryKeyBound p.2) :
    rget (applyEntry doc d p) k = rget d k := by
  unfold applyEntry
  cases doc.labelValue p.1 with
  | none => rfl
  | some v =>
    by_cases hv : v = ""
    · simp [hv]
    · simp only [if_neg hv]
      apply rget_rsets_of_not_mem
      intro hc
      rcases List.mem_map.1 hc with ⟨kv, hkv, hfst⟩
      exact h (hfst ▸ pairsFor_keys_sub p.2 v kv hkv)

theorem keysOf_applyEntry_of_sub (doc : Doc) (d : Record) (p : String × String)
    (h : ∀ k ∈ entryKeyBound p.2, k ∈ keysOf d) :
    keysOf (applyEntry doc d p) = keysOf d := by
  unfold applyEntry
  cases doc.labelValue p.1 with
  | none => rfl
  | some v =>
    by_cases hv : v = ""
    · simp [hv]
    · simp only [if_neg hv]
      exact keysOf_rsets_of_sub d _ (fun kv hkv => h kv.1 (pairsFor_keys_sub p.2 v kv hkv))

theorem rget_foldl_of_pres (doc : Doc) (l : List (String × String)) (d : Record)
    (k : String)
    (h : ∀ p ∈ l, ∀ e : Record, rget (applyEntry doc e p) k = rget e k) :
    rget (l.foldl (applyEntry doc) d) k = rget d k := by
  induction l generalizing d with
  | nil => rfl
  | cons p rest ih =>
    show rget (rest.foldl (applyEntry doc) (applyEntry doc d p)) k = rget d k
    rw [ih (applyEntry doc d p) (fun q hq => h q (by simp [hq])), h p (by simp) d]

theorem keysOf_foldl_of_sub (doc : Doc) (l : List (String × String)) (d : Record)
    (h : ∀ p ∈ l, ∀ k ∈ entryKeyBound p.2, k ∈ keysOf d) :
    keysOf (l.foldl (applyEntry doc) d) = keysOf d := by
  induction l generalizing d with
  | nil => rfl
  | cons p rest ih =>
    show keysOf (rest.foldl (applyEntry doc) (applyEntry doc d p)) = keysOf d
    have hstep : keysOf (applyEntry doc d p) = keysOf d :=
      keysOf_applyEntry_of_sub doc d p (h p (by simp))
    rw [ih (applyEntry doc d p) (fun q hq k hk => hstep ▸ h q (by simp [hq]) k hk), hstep]

/-- The keys present before the image pass: the schema plus `link` and
`create_date`. -/
def BASE_KEYS : List String := OUTPUT_KEYS ++ ["link", "create_date"]

set_option maxRecDepth 10000 in
theorem imgKey_not_base : ∀ n, n ≤ 16 → catKey n ∉ BASE_KEYS ∧ urlKey n ∉ BASE_KEYS := by
  decide

set_option maxRecDepth 10000 in
theorem imgKey_inj : ∀ i, i ≤ 16 → ∀ j, j ≤ 16 →
    (catKey i = catKey j ↔ i = j) ∧ catKey i ≠ urlKey j ∧ (urlKey i = urlKey j ↔ i = j) := by
  decide

/-- The category/url keys of slots `lo, lo+1, …, lo+n-1`, interleaved in
write order. -/
def slotKeys : Nat → Nat → List String
  | _, 0 => []
  | lo, n + 1 => catKey lo :: urlKey lo :: slotKeys (lo + 1) n

theorem slotKeys_snoc (lo n : Nat) :
    slotKeys lo (n + 1) = slotKeys lo n ++ [catKey (lo + n), urlKey (lo + n)] := by
  induction n generalizing lo with
  | zero => simp [slotKeys]
  | succ m ih =>
    show catKey lo :: urlKey lo :: slotKeys (lo + 1) (m + 1) = _
    rw [ih (lo + 1)]
    simp [slotKeys, Nat.add_assoc, Nat.add_comm 1 m]

theorem mem_slotKeys (k : String) (lo n : Nat) :
    k ∈ slotKeys lo n ↔ ∃ i, lo ≤ i ∧ i < lo + n ∧ (k = catKey i ∨ k = urlKey i) := by
  induction n generalizing lo with
  | zero => simp [slotKeys]; omega
  | succ m ih =>
    simp only [slotKeys, List.mem_cons, ih (lo + 1)]
    constructor
    · rintro (h | h | ⟨i, h1, h2, h3⟩)
      · exact ⟨lo, le_refl lo, by omega, Or.inl h⟩
      · exact ⟨lo, le_refl lo, by omega, Or.inr h⟩
      · exact ⟨i, by omega, by omega, h3⟩
    · rintro ⟨i, h1, h2, h3⟩
      by_cases hi : i = lo
      · subst hi
        rcases h3 with h3 | h3
        · exact Or.inl h3
        · exact Or.inr (Or.inl h3)
      · exact Or.inr (Or.inr ⟨i, by omega, by omega, h3⟩)

theorem collectGo_count (imgs : List Img) (count : Nat) (d : Record)
    (h : count ≤ 16) :
    (collectGo 16 imgs count d).2 = min (count + (validImgs imgs).length) 16 := by
  induction imgs generalizing count d with
  | nil => simp [collectGo, validImgs]; omega
  | cons im rest ih =>
    by_cases h16 : 16 ≤ count
    · have hc : count = 16 := le_antisymm h h16
      subst hc
      simp [collectGo, validImgs]
    · by_cases hv : truthyS (imgRawUrl im)
      · have : validImgs (im :: rest) = im :: validImgs rest := by
          simp [validImgs, List.filter_cons, hv]
        rw [this]
        simp only [collectGo, if_neg h16, if_pos hv]
        rw [ih (count + 1) _ (by omega)]
        simp [List.length_cons]
        omega
      · have : validImgs (im :: rest) = validImgs rest := by
          simp [validImgs, List.filter_cons, hv]
        rw [this]
        simp only [collectGo, if_neg h16, if_neg hv]
        exact ih count d h

theorem rget_collectGo_of_pres (imgs : List Img) (count : Nat) (d : Record)
    (k : String)
    (h : ∀ m, count < m → m ≤ 16 → k ≠ catKey m ∧ k ≠ urlKey m) :
    rget (collectGo 16 imgs count d).1 k = rget d k := by
  induction imgs generalizing count d with
  | nil => rfl
  | cons im rest ih =>
    by_cases h16 : 16 ≤ count
    · simp [collectGo, h16]
    · by_cases hv : truthyS (imgRawUrl im)
      · simp only [collectGo, if_neg h16, if_pos hv]
        rw [ih (count + 1) _ (fun m hm1 hm2 => h m (by omega) hm2)]
        have hc1 : count < count + 1 := by omega
        have hc2 : count + 1 ≤ 16 := by omega
        rw [rget_rset_of_ne _ _ _ _ (h (count + 1) hc1 hc2).2,
          rget_rset_of_ne _ _ _ _ (h (count + 1) hc1 hc2).1]
      · simp only [collectGo, if_neg h16, if_neg hv]
        exact ih count d h

theorem keysOf_collectGo (imgs : List Img) (count : Nat) (d : Record)
    (hc : count ≤ 16) (hkeys : keysOf d = BASE_KEYS ++ slotKeys 1 count) :
    keysOf (collectGo 16 imgs count d).1 =
      BASE_KEYS ++ slotKeys 1 (collectGo 16 imgs count d).2 := by
  induction imgs generalizing count d with
  | nil => simpa [collectGo] using hkeys
  | cons im rest ih =>
    by_cases h16 : 16 ≤ count
    · simpa [collectGo, h16] using hkeys
    · by_cases hv : truthyS (imgRawUrl im)
      · simp only [collectGo, if_neg h16, if_pos hv]
        apply ih (count + 1) _ (by omega)
        have hcat : catKey (count + 1) ∉ keysOf d := by
          rw [hkeys]
          intro hmem
          rcases List.mem_append.1 hmem with hb | hs
          · exact (imgKey_not_base (count + 1) (by omega)).1 hb
          · rcases (mem_slotKeys _ 1 count).1 hs with ⟨i, hi1, hi2, hi3 | hi3⟩
            · exact absurd ((imgKey_inj (count + 1) (by omega) i (by omega)).1.mp hi3) (by omega)
            · exact (imgKey_inj (count + 1) (by omega) i (by omega)).2.1 hi3
        have hurl : urlKey (count + 1) ∉ keysOf (rset d (catKey (count + 1)) (Val.s (imgCategory im))) := by
          rw [keysOf_rset_of_not_mem d _ _ hcat, hkeys]
          intro hmem
          rcases List.mem_append.1 hmem with hmem | hmem
          · rcases List.mem_append.1 hmem with hb | hs
            · exact (imgKey_not_base (count + 1) (by omega)).2 hb
            · rcases (mem_slotKeys _ 1 count).1 hs with ⟨i, hi1, hi2, hi3 | hi3⟩
              · exact (imgKey_inj i (by omega) (count + 1) (by omega)).2.1 hi3.symm
              · exact absurd ((imgKey_inj (count + 1) (by omega) i (by omega)).2.2.mp hi3) (by omega)
          · simp only [List.mem_singleton] at hmem
            exact (imgKey_inj (count + 1) (by omega) (count + 1) (by omega)).2.1 hmem.symm
        rw [keysOf_rset_of_not_mem _ _ _ hurl, keysOf_rset_of_not_mem d _ _ hcat, hkeys]
        rw [slotKeys_snoc 1 count]
        simp [Nat.add_comm 1 count]
      · simp only [collectGo, if_neg h16, if_neg hv]
        exact ih count d hc hkeys

theorem rget_collectGo_pop (imgs : List Img) (count : Nat) (d : Record)
    (hc : count ≤ 16) :
    ∀ i im, (validImgs imgs).get? i = some im → count + i + 1 ≤ 16 →
      rget (collectGo 16 imgs count d).1 (catKey (count + i + 1)) =
        Val.s (imgCategory im) ∧
      rget (collectGo 16 imgs count d).1 (urlKey (count + i + 1)) =
        Val.s (resolveUrl ((imgRawUrl im).getD "")) := by
  induction imgs generalizing count d with
  | nil => intro i im hget _; simp [validImgs] at hget
  | cons im' rest ih =>
    intro i im hget hle
    by_cases h16 : 16 ≤ count
    · omega
    · by_cases hv : truthyS (imgRawUrl im')
      · have hfil : validImgs (im' :: rest) = im' :: validImgs rest := by
          simp [validImgs, List.filter_cons, hv]
        rw [hfil] at hget
        simp only [collectGo, if_neg h16, if_pos hv]
        cases i with
        | zero =>
          simp only [List.get?_cons_zero, Option.some.injEq] at hget
          subst hget
          have hpres : ∀ m, count + 1 < m → m ≤ 16 →
              catKey (count + 0 + 1) ≠ catKey m ∧ catKey (count + 0 + 1) ≠ urlKey m := by
            intro m hm1 hm2
            refine ⟨fun hc' => ?_, (imgKey_inj (count + 0 + 1) (by omega) m hm2).2.1⟩
            exact absurd ((imgKey_inj (count + 0 + 1) (by omega) m hm2).1.mp hc') (by omega)
          have hpresu : ∀ m, count + 1 < m → m ≤ 16 →
              urlKey (count + 0 + 1) ≠ catKey m ∧ urlKey (count + 0 + 1) ≠ urlKey m := by
            intro m hm1 hm2
            refine ⟨fun hc' => (imgKey_inj m hm2 (count + 0 + 1) (by omega)).2.1 hc'.symm, fun hc' => ?_⟩
            exact absurd ((imgKey_inj (count + 0 + 1) (by omega) m hm2).2.2.mp hc') (by omega)
          constructor
          · rw [rget_collectGo_of_pres rest (count + 1) _ _ (by simpa using hpres)]
            rw [rget_rset_of_ne _ _ _ _ (imgKey_inj (count + 1) (by omega) (count + 1) (by omega)).2.1]
            simpa using rget_rset_self d (catKey (count + 1)) _
          · rw [rget_collectGo_of_pres rest (count + 1) _ _ (by simpa using hpresu)]
            simpa using rget_rset_self _ (urlKey (count + 1)) _
        | succ i' =>
          have := ih (count + 1) (rset (rset d (catKey (count + 1)) (Val.s (imgCategory im')))
              (urlKey (count + 1)) (Val.s (resolveUrl ((imgRawUrl im').getD ""))))
              (by omega) i' im (by simpa using hget) (by omega)
          have harith : count + 1 + i' + 1 = count + (i' + 1) + 1 := by omega
          rw [harith] at this
          exact this
      · have hfil : validImgs (im' :: rest) = validImgs rest := by
          simp [validImgs, List.filter_cons, hv]
        rw [hfil] at hget
        simp only [collectGo, if_neg h16, if_neg hv]
        exact ih count d hc i im hget hle

theorem rget_fillSlots_of_not_mem (d : Record) (is : List Nat) (k : String)
    (h : ∀ i ∈ is, k ≠ catKey i ∧ k ≠ urlKey i) :
    rget (fillSlots d is) k = rget d k := by
  induction is generalizing d with
  | nil => rfl
  | cons j rest ih =>
    show rget (fillSlots (rset (rset d (catKey j) Val.null) (urlKey j) Val.null) rest) k = rget d k
    rw [ih _ (fun i hi => h i (by simp [hi])),
      rget_rset_of_ne _ _ _ _ (h j (by simp)).2,
      rget_rset_of_ne _ _ _ _ (h j (by simp)).1]

theorem rget_fillSlots_mem (d : Record) (is : List Nat) (i : Nat)
    (hi : i ∈ is) (hb : ∀ j ∈ is, j ≤ 16) :
    rget (fillSlots d is) (catKey i) = Val.null ∧
    rget (fillSlots d is) (urlKey i) = Val.null := by
  induction is generalizing d with
  | nil => simp at hi
  | cons j rest ih =>
    by_cases hir : i ∈ rest
    · exact ih _ hir (fun j' hj' => hb j' (by simp [hj']))
    · have hij : i = j := by
        rcases List.mem_cons.1 hi with h | h
        · exact h
        · exact absurd h hir
      subst hij
      have hi16 : i ≤ 16 := hb i (by simp)
      show rget (fillSlots (rset (rset d (catKey i) Val.null) (urlKey i) Val.null) rest) (catKey i) = Val.null ∧
        rget (fillSlots (rset (rset d (catKey i) Val.null) (urlKey i) Val.null) rest) (urlKey i) = Val.null
      have hpres : ∀ j' ∈ rest, catKey i ≠ catKey j' ∧ catKey i ≠ urlKey j' := by
        intro j' hj'
        have hj16 : j' ≤ 16 := hb j' (by simp [hj'])
        refine ⟨fun hc' => hir (((imgKey_inj i hi16 j' hj16).1.mp hc') ▸ hj'), 
          (imgKey_inj i hi16 j' hj16).2.1⟩
      have hpresu : ∀ j' ∈ rest, urlKey i ≠ catKey j' ∧ urlKey i ≠ urlKey j' := by
        intro j' hj'
        have hj16 : j' ≤ 16 := hb j' (by simp [hj'])
        refine ⟨fun hc' => (imgKey_inj j' hj16 i hi16).2.1 hc'.symm,
          fun hc' => hir (((imgKey_inj i hi16 j' hj16).2.2.mp hc') ▸ hj')⟩
      constructor
      · rw [rget_fillSlots_of_not_mem _ rest _ hpres,
          rget_rset_of_ne _ _ _ _ (imgKey_inj i hi16 i hi16).2.1, rget_rset_self]
      · rw [rget_fillSlots_of_not_mem _ rest _ hpresu, rget_rset_self]

theorem keysOf_fillSlots_of_mem (d : Record) (is : List Nat)
    (h : ∀ i ∈ is, catKey i ∈ keysOf d ∧ urlKey i ∈ keysOf d) :
    keysOf (fillSlots d is) = keysOf d := by
  induction is generalizing d with
  | nil => rfl
  | cons j rest ih =>
    show keysOf (fillSlots (rset (rset d (catKey j) Val.null) (urlKey j) Val.null) rest) = keysOf d
    have h1 : keysOf (rset d (catKey j) Val.null) = keysOf d :=
      keysOf_rset_of_mem _ _ _ (h j (by simp)).1
    have h2 : keysOf (rset (rset d (catKey j) Val.null) (urlKey j) Val.null) = keysOf d := by
      rw [keysOf_rset_of_mem _ _ _ (h1 ▸ (h j (by simp)).2), h1]
    rw [ih _ (fun i hi => h2 ▸ h i (by simp [hi])), h2]

theorem slotKeys_append (lo m k : Nat) :
    slotKeys lo m ++ slotKeys (lo + m) k = slotKeys lo (m + k) := by
  induction m generalizing lo with
  | zero => simp [slotKeys]
  | succ m' ih =>
    show catKey lo :: urlKey lo :: slotKeys (lo + 1) m' ++ slotKeys (lo + (m' + 1)) k = _
    have harith : lo + (m' + 1) = lo + 1 + m' := by omega
    rw [List.cons_append, List.cons_append, harith, ih (lo + 1)]
    have harith2 : m' + 1 + k = (m' + k) + 1 := by omega
    rw [harith2]
    rfl

theorem keysOf_fillSlots_fresh (n : Nat) : ∀ (lo : Nat) (d : Record),
    lo + n ≤ 17 →
    (∀ i, lo ≤ i → i < lo + n → catKey i ∉ keysOf d ∧ urlKey i ∉ keysOf d) →
    keysOf (fillSlots d (List.range' lo n)) = keysOf d ++ slotKeys lo n := by
  induction n with
  | zero => intro lo d _ _; simp [fillSlots, slotKeys]
  | succ n' ih =>
    intro lo d hb hfresh
    show keysOf (fillSlots (rset (rset d (catKey lo) Val.null) (urlKey lo) Val.null)
      (List.range' (lo + 1) n')) = _
    have hlo16 : lo ≤ 16 := by omega
    have hc : catKey lo ∉ keysOf d := (hfresh lo (by omega) (by omega)).1
    have hkeys1 : keysOf (rset d (catKey lo) Val.null) = keysOf d ++ [catKey lo] :=
      keysOf_rset_of_not_mem d _ _ hc
    have hu : urlKey lo ∉ keysOf (rset d (catKey lo) Val.null) := by
      rw [hkeys1]
      intro hmem
      rcases List.mem_append.1 hmem with hmem | hmem
      · exact (hfresh lo (by omega) (by omega)).2 hmem
      · simp only [List.mem_singleton] at hmem
        exact (imgKey_inj lo hlo16 lo hlo16).2.1 hmem.symm
    have hkeys2 : keysOf (rset (rset d (catKey lo) Val.null) (urlKey lo) Val.null) =
        keysOf d ++ [catKey lo, urlKey lo] := by
      rw [keysOf_rset_of_not_mem _ _ _ hu, hkeys1]
      simp
    rw [ih (lo + 1) _ (by omega) ?_, hkeys2]
    · simp [slotKeys]
    · intro i hi1 hi2
      rw [hkeys2]
      have hi16 : i ≤ 16 := by omega
      constructor
      · intro hmem
        rcases List.mem_append.1 hmem with hmem | hmem
        · exact (hfresh i (by omega) (by omega)).1 hmem
        · rcases List.mem_cons.1 hmem with hmem | hmem
          · exact absurd ((imgKey_inj i hi16 lo hlo16).1.mp hmem) (by omega)
          · simp only [List.mem_singleton] at hmem
            exact (imgKey_inj i hi16 lo hlo16).2.1 hmem
      · intro hmem
        rcases List.mem_append.1 hmem with hmem | hmem
        · exact (hfresh i (by omega) (by omega)).2 hmem
        · rcases List.mem_cons.1 hmem with hmem | hmem
          · exact (imgKey_inj lo hlo16 i hi16).2.1 hmem.symm
          · simp only [List.mem_singleton] at hmem
            exact absurd ((imgKey_inj i hi16 lo hlo16).2.2.mp hmem) (by omega)

theorem rget_parse_images_of_pres (imgs : List Img) (d : Record) (k : String)
    (h : ∀ m, 1 ≤ m → m ≤ 16 → k ≠ catKey m ∧ k ≠ urlKey m) :
    rget (parse_images imgs d 16) k = rget d k := by
  unfold parse_images
  rw [rget_fillSlots_of_not_mem _ _ _ ?_, rget_collectGo_of_pres _ _ _ _ ?_]
  · intro m hm1 hm2
    exact h m (by omega) hm2
  · intro i hi
    rcases List.mem_range'.1 hi with ⟨j, hj, rfl⟩
    have hcle : (collectGo 16 imgs 0 d).2 ≤ 16 := by
      rw [collectGo_count imgs 0 d (by omega)]
      omega
    exact h _ (by omega) (by omega)

theorem rget_parse_images_of_base (imgs : List Img) (d : Record) (k : String)
    (hk : k ∈ BASE_KEYS) :
    rget (parse_images imgs d 16) k = rget d k := by
  apply rget_parse_images_of_pres
  intro m _ hm2
  constructor
  · intro hc
    exact (imgKey_not_base m hm2).1 (hc ▸ hk)
  · intro hc
    exact (imgKey_not_base m hm2).2 (hc ▸ hk)

theorem parse_images_pop (imgs : List Img) (d : Record) (i : Nat) (im : Img)
    (hget : (validImgs imgs).get? i = some im) (hle : i + 1 ≤ 16) :
    rget (parse_images imgs d 16) (catKey (i + 1)) = Val.s (imgCategory im) ∧
    rget (parse_images imgs d 16) (urlKey (i + 1)) =
      Val.s (resolveUrl ((imgRawUrl im).getD "")) := by
  unfold parse_images
  have hcount : (collectGo 16 imgs 0 d).2 = min (validImgs imgs).length 16 := by
    rw [collectGo_count imgs 0 d (by omega)]
    simp
  have hivalid : i < (validImgs imgs).length := List.get?_eq_some.1 hget |>.1
  have hfill : ∀ j ∈ List.range' ((collectGo 16 imgs 0 d).2 + 1)
      (16 - (collectGo 16 imgs 0 d).2),
      catKey (i + 1) ≠ catKey j ∧ catKey (i + 1) ≠ urlKey j := by
    intro j hj
    rcases List.mem_range'.1 hj with ⟨x, hx, rfl⟩
    rw [hcount] at hx ⊢
    have hj16 : min (validImgs imgs).length 16 + 1 + x ≤ 16 := by omega
    refine ⟨fun hc' => ?_, (imgKey_inj (i + 1) hle _ (by omega)).2.1⟩
    have := (imgKey_inj (i + 1) hle _ (by omega)).1.mp hc'
    omega
  have hfillu : ∀ j ∈ List.range' ((collectGo 16 imgs 0 d).2 + 1)
      (16 - (collectGo 16 imgs 0 d).2),
      urlKey (i + 1) ≠ catKey j ∧ urlKey (i + 1) ≠ urlKey j := by
    intro j hj
    rcases List.mem_range'.1 hj with ⟨x, hx, rfl⟩
    rw [hcount] at hx ⊢
    have hj16 : min (validImgs imgs).length 16 + 1 + x ≤ 16 := by omega
    refine ⟨fun hc' => (imgKey_inj _ (by omega) (i + 1) hle).2.1 hc'.symm, fun hc' => ?_⟩
    have := (imgKey_inj (i + 1) hle _ (by omega)).2.2.mp hc'
    omega
  have hpop := rget_collectGo_pop imgs 0 d (by omega) i im hget (by omega)
  constructor
  · rw [rget_fillSlots_of_not_mem _ _ _ hfill]
    simpa using hpop.1
  · rw [rget_fillSlots_of_not_mem _ _ _ hfillu]
    simpa using hpop.2

theorem parse_images_null (imgs : List Img) (d : Record) (j : Nat)
    (hj1 : (validImgs imgs).length < j) (hj16 : j ≤ 16) :
    rget (parse_images imgs d 16) (catKey j) = Val.null ∧
    rget (parse_images imgs d 16) (urlKey j) = Val.null := by
  unfold parse_images
  have hcount : (collectGo 16 imgs 0 d).2 = min (validImgs imgs).length 16 := by
    rw [collectGo_count imgs 0 d (by omega)]
    simp
  apply rget_fillSlots_mem
  · rw [hcount]
    apply List.mem_range'.2
    exact ⟨j - (min (validImgs imgs).length 16 + 1), by omega, by omega⟩
  · intro j' hj'
    rcases List.mem_range'.1 hj' with ⟨x, hx, rfl⟩
    rw [hcount] at hx ⊢
    omega

theorem keysOf_parse_images (imgs : List Img) (d : Record)
    (hkeys : keysOf d = BASE_KEYS) :
    keysOf (parse_images imgs d 16) = BASE_KEYS ++ slotKeys 1 16 := by
  unfold parse_images
  have hcount : (collectGo 16 imgs 0 d).2 = min (validImgs imgs).length 16 := by
    rw [collectGo_count imgs 0 d (by omega)]
    simp
  have hc16 : (collectGo 16 imgs 0 d).2 ≤ 16 := by omega
  have hcollect := keysOf_collectGo imgs 0 d (by omega) (by simpa [slotKeys] using hkeys)
  rw [keysOf_fillSlots_fresh _ _ _ (by omega) ?_, hcollect]
  · rw [List.append_assoc]
    have h1 : (collectGo 16 imgs 0 d).2 + 1 = 1 + (collectGo 16 imgs 0 d).2 := by omega
    rw [h1, slotKeys_append]
    have h2 : (collectGo 16 imgs 0 d).2 + (16 - (collectGo 16 imgs 0 d).2) = 16 := by omega
    rw [h2]
  · intro i hi1 hi2
    rw [hcollect]
    have hi16 : i ≤ 16 := by omega
    constructor
    · intro hmem
      rcases List.mem_append.1 hmem with hmem | hmem
      · exact (imgKey_not_base i hi16).1 hmem
      · rcases (mem_slotKeys _ 1 _).1 hmem with ⟨x, hx1, hx2, hx3 | hx3⟩
        · exact absurd ((imgKey_inj i hi16 x (by omega)).1.mp hx3) (by omega)
        · exact (imgKey_inj i hi16 x (by omega)).2.1 hx3
    · intro hmem
      rcases List.mem_append.1 hmem with hmem | hmem
      · exact (imgKey_not_base i hi16).2 hmem
      · rcases (mem_slotKeys _ 1 _).1 hmem with ⟨x, hx1, hx2, hx3 | hx3⟩
        · exact (imgKey_inj x (by omega) i hi16).2.1 hx3.symm
        · exact absurd ((imgKey_inj i hi16 x (by omega)).2.2.mp hx3) (by omega)

theorem rget_applyFees_of_ne (d : Record) (k : String)
    (h1 : k ≠ "months_guarantor") (h2 : k ≠ "numeric_guarantor")
    (h3 : k ≠ "months_agency") : rget (applyFees d) k = rget d k := by
  unfold applyFees
  simp only []
  split_ifs <;> simp [rget_rset_of_ne, h1, h2, h3]

theorem rget_applyFees_set (d : Record)
    (h1 : falsyV (rget d "months_guarantor") = true)
    (h2 : falsyV (rget d "numeric_guarantor") = true)
    (h3 : falsyV (rget d "months_agency") = true) :
    rget (applyFees d) "months_guarantor" =
      Val.f ((roundHalfEven (computeRent (valStr (rget d "monthly_rent")) * 0.5) : ℤ) : ℚ) ∧
    rget (applyFees d) "numeric_guarantor" =
      Val.f ((roundHalfEven (computeRent (valStr (rget d "monthly_rent")) * 1.0) : ℤ) : ℚ) ∧
    rget (applyFees d) "months_agency" =
      Val.f ((roundHalfEven (computeRent (valStr (rget d "monthly_rent")) * 1.1) : ℤ) : ℚ) := by
  have hne1 : ("numeric_guarantor" : String) ≠ "months_guarantor" := by decide
  have hne2 : ("months_agency" : String) ≠ "months_guarantor" := by decide
  have hne3 : ("months_agency" : String) ≠ "numeric_guarantor" := by decide
  have hne4 : ("months_guarantor" : String) ≠ "numeric_guarantor" := by decide
  have hne5 : ("months_guarantor" : String) ≠ "months_agency" := by decide
  have hne6 : ("numeric_guarantor" : String) ≠ "months_agency" := by decide
  unfold applyFees
  simp only []
  set q := computeRent (valStr (rget d "monthly_rent")) with hq
  set v1 := Val.f ((roundHalfEven (q * 0.5) : ℤ) : ℚ) with hv1
  set v2 := Val.f ((roundHalfEven (q * 1.0) : ℤ) : ℚ) with hv2
  set v3 := Val.f ((roundHalfEven (q * 1.1) : ℤ) : ℚ) with hv3
  rw [if_pos h1]
  have g2 : falsyV (rget (rset d "months_guarantor" v1) "numeric_guarantor") = true := by
    rw [rget_rset_of_ne _ _ _ _ hne1]
    exact h2
  rw [if_pos g2]
  have g3 : falsyV (rget (rset (rset d "months_guarantor" v1) "numeric_guarantor" v2)
      "months_agency") = true := by
    rw [rget_rset_of_ne _ _ _ _ hne3, rget_rset_of_ne _ _ _ _ hne2]
    exact h3
  rw [if_pos g3]
  refine ⟨?_, ?_, ?_⟩
  · rw [rget_rset_of_ne _ _ _ _ hne5, rget_rset_of_ne _ _ _ _ hne4, rget_rset_self]
  · rw [rget_rset_of_ne _ _ _ _ hne6, rget_rset_self]
  · rw [rget_rset_self]

theorem keysOf_applyFees (d : Record)
    (h1 : "months_guarantor" ∈ keysOf d) (h2 : "numeric_guarantor" ∈ keysOf d)
    (h3 : "months_agency" ∈ keysOf d) : keysOf (applyFees d) = keysOf d := by
  have step : ∀ (e : Record) (k : String) (v : Val), k ∈ keysOf d →
      keysOf e = keysOf d →
      keysOf (if falsyV (rget e k) = true then rset e k v else e) = keysOf d := by
    intro e k v hk he
    split
    · rw [keysOf_rset_of_mem e k v (by rw [he]; exact hk), he]
    · exact he
  unfold applyFees
  simp only []
  apply step _ _ _ h3
  apply step _ _ _ h2
  apply step _ _ _ h1
  rfl

/-! ### Claim C2: the output key set -/

/-- The full output key list: the declared schema, then `link` and
`create_date`, then the 32 image-slot keys in slot order. -/
def FULL_KEYS : List String := BASE_KEYS ++ slotKeys 1 16

theorem link_not_out : "link" ∉ OUTPUT_KEYS := by decide

theorem cdate_not_out_link : "create_date" ∉ OUTPUT_KEYS ++ ["link"] := by decide

set_option maxRecDepth 10000 in
theorem entry_bounds_sub : ∀ p ∈ UI_MAPPING, ∀ k ∈ entryKeyBound p.2, k ∈ BASE_KEYS := by
  decide

theorem fee_keys_mem_base : "months_guarantor" ∈ BASE_KEYS ∧
    "numeric_guarantor" ∈ BASE_KEYS ∧ "months_agency" ∈ BASE_KEYS := by decide

/-- C2: for every pair of input documents the records produced by
`parse_property` have the same key set — indeed the same key list —
and that key set is exactly the declared output schema plus the 32
image-slot keys plus `link` and `create_date`; every declared key is
present in every produced record (null-valued keys included), since
`FULL_KEYS` lists each schema key. -/
theorem parse_property_key_list (url create_date : String) (doc : Doc) :
    keysOf (parse_property url create_date doc) = FULL_KEYS := by
  unfold parse_property
  simp only []
  have h0 : keysOf (OUTPUT_KEYS.map (fun key => (key, Val.null))) = OUTPUT_KEYS := by
    simp only [keysOf, List.map_map]
    exact List.map_id'' (fun x => rfl) OUTPUT_KEYS
  have h1 : keysOf (rset (OUTPUT_KEYS.map (fun key => (key, Val.null)))
      "link" (Val.s url)) = OUTPUT_KEYS ++ ["link"] := by
    rw [keysOf_rset_of_not_mem _ _ _ (by rw [h0]; exact link_not_out), h0]
  have h2 : keysOf (rset (rset (OUTPUT_KEYS.map (fun key => (key, Val.null)))
      "link" (Val.s url)) "create_date" (Val.s create_date)) = BASE_KEYS := by
    rw [keysOf_rset_of_not_mem _ _ _ (by rw [h1]; exact cdate_not_out_link), h1]
    simp [BASE_KEYS]
  have h3 : keysOf (UI_MAPPING.foldl (applyEntry doc)
      (rset (rset (OUTPUT_KEYS.map (fun key => (key, Val.null)))
        "link" (Val.s url)) "create_date" (Val.s create_date))) = BASE_KEYS := by
    rw [keysOf_foldl_of_sub doc _ _ ?_, h2]
    intro p hp k hk
    rw [h2]
    exact entry_bounds_sub p hp k hk
  have h4 : keysOf (applyFees (UI_MAPPING.foldl (applyEntry doc)
      (rset (rset (OUTPUT_KEYS.map (fun key => (key, Val.null)))
        "link" (Val.s url)) "create_date" (Val.s create_date)))) = BASE_KEYS := by
    rw [keysOf_applyFees _ (by rw [h3]; exact fee_keys_mem_base.1)
      (by rw [h3]; exact fee_keys_mem_base.2.1)
      (by rw [h3]; exact fee_keys_mem_base.2.2), h3]
  rw [keysOf_parse_images _ _ h4]
  rfl

/-! ### Locating a single entry's effect -/

/-- The record before the label loop: all schema keys null, then
`link` and `create_date`. -/
def initRecord (url create_date : String) : Record :=
  rset (rset (OUTPUT_KEYS.map (fun key => (key, Val.null)))
    "link" (Val.s url)) "create_date" (Val.s create_date)

/-- The record after the label loop. -/
def afterMapping (url create_date : String) (doc : Doc) : Record :=
  UI_MAPPING.foldl (applyEntry doc) (initRecord url create_date)

theorem parse_property_eq (url create_date : String) (doc : Doc) :
    parse_property url create_date doc =
      parse_images doc.images (applyFees (afterMapping url create_date doc)) 16 := rfl

theorem rget_allNull (ks : List String) (k : String) :
    rget (ks.map (fun key => (key, Val.null))) k = Val.null := by
  induction ks with
  | nil => rfl
  | cons a rest ih =>
    by_cases h : a = k <;> simp [rget, h, ih]

theorem rget_initRecord (url create_date k : String) (h1 : k ≠ "link")
    (h2 : k ≠ "create_date") : rget (initRecord url create_date) k = Val.null := by
  unfold initRecord
  rw [rget_rset_of_ne _ _ _ _ h2, rget_rset_of_ne _ _ _ _ h1, rget_allNull]

theorem rget_foldl_entries (doc : Doc) (l : List (String × String)) (d : Record)
    (k : String) (h : ∀ p ∈ l, k ∉ entryKeyBound p.2) :
    rget (l.foldl (applyEntry doc) d) k = rget d k :=
  rget_foldl_of_pres doc l d k
    (fun p hp e => rget_applyEntry_of_not_mem doc e p k (h p hp))

theorem rget_final_at_entry (url create_date : String) (doc : Doc) (k : String)
    (pre post : List (String × String)) (e : String × String)
    (hsplit : UI_MAPPING = pre ++ e :: post)
    (hpost : ∀ p ∈ post, k ∉ entryKeyBound p.2)
    (hfee : k ≠ "months_guarantor" ∧ k ≠ "numeric_guarantor" ∧ k ≠ "months_agency")
    (hbase : k ∈ BASE_KEYS) :
    rget (parse_property url create_date doc) k =
      rget (applyEntry doc (pre.foldl (applyEntry doc) (initRecord url create_date)) e) k := by
  rw [parse_property_eq, rget_parse_images_of_base _ _ _ hbase,
    rget_applyFees_of_ne _ _ hfee.1 hfee.2.1 hfee.2.2]
  show rget (UI_MAPPING.foldl (applyEntry doc) (initRecord url create_date)) k = _
  rw [hsplit, List.foldl_append, List.foldl_cons]
  exact rget_foldl_entries doc post _ k hpost

theorem rget_pre_entry_null (url create_date : String) (doc : Doc) (k : String)
    (pre : List (String × String)) (hpre : ∀ p ∈ pre, k ∉ entryKeyBound p.2)
    (hl : k ≠ "link") (hc : k ≠ "create_date") :
    rget (pre.foldl (applyEntry doc) (initRecord url create_date)) k = Val.null := by
  rw [rget_foldl_entries doc pre _ k hpre, rget_initRecord url create_date k hl hc]

theorem lastLookup_append (A B : List (String × Val)) (k : String) :
    lastLookup (A ++ B) k = match lastLookup B k with
      | some v => some v
      | none => lastLookup A k := by
  induction A with
  | nil => cases h : lastLookup B k <;> simp [lastLookup, h]
  | cons kv rest ih =>
    show lastLookup (kv :: (rest ++ B)) k = _
    simp only [lastLookup, ih]
    cases h : lastLookup B k with
    | some v => simp
    | none => cases h2 : lastLookup rest k <;> simp

/-! ### Claim C3: the facing one-hot invariant -/

theorem ui_split_facing :
    UI_MAPPING = UI_MAPPING.take 9 ++ ("方位", "facing") :: UI_MAPPING.drop 10 := by
  decide

theorem facing_pre_bound :
    ∀ k ∈ FACING_KEYS, ∀ p ∈ UI_MAPPING.take 9, k ∉ entryKeyBound p.2 := by
  decide

theorem facing_post_bound :
    ∀ k ∈ FACING_KEYS, ∀ p ∈ UI_MAPPING.drop 10, k ∉ entryKeyBound p.2 := by
  decide

theorem facing_misc : ∀ k ∈ FACING_KEYS,
    k ≠ "months_guarantor" ∧ k ≠ "numeric_guarantor" ∧ k ≠ "months_agency" ∧
    k ≠ "link" ∧ k ≠ "create_date" ∧ k ∈ BASE_KEYS := by
  decide

theorem facing_lastLookup_N : ∀ fk ∈ FACING_KEYS,
    lastLookup (JP_TO_EN_FACING.map (fun p => (p.2, Val.s "N"))) fk =
      some (Val.s "N") := by
  decide

theorem facing_keys_nodup : FACING_KEYS.Nodup := by decide

theorem pairsFor_facing (v : String) :
    pairsFor "facing" v = (JP_TO_EN_FACING.map (fun p => (p.2, Val.s "N"))) ++
      (match lookupA JP_TO_EN_FACING (pyStrip v) with
       | some key_name => [(key_name, Val.s "Y")]
       | none => []) := rfl

theorem rget_rsets_getD (d : Record) (kvs : List (String × Val)) (k : String) :
    rget (rsets d kvs) k = (lastLookup kvs k).getD (rget d k) := by
  rw [rget_rsets]
  cases lastLookup kvs k <;> rfl

theorem lastLookup_append_or (A B : List (String × Val)) (k : String) :
    lastLookup (A ++ B) k = (lastLookup B k).or (lastLookup A k) := by
  rw [lastLookup_append]
  cases lastLookup B k <;> rfl

theorem facing_entry_values (v : String) (d : Record) (fk : String)
    (hfk : fk ∈ FACING_KEYS) :
    rget (rsets d (pairsFor "facing" v)) fk =
      if lookupA JP_TO_EN_FACING (pyStrip v) = some fk then Val.s "Y"
      else Val.s "N" := by
  rw [pairsFor_facing, rget_rsets_getD, lastLookup_append_or]
  have hN := facing_lastLookup_N fk hfk
  cases hl : lookupA JP_TO_EN_FACING (pyStrip v) with
  | none =>
    rw [show lastLookup ([] : List (String × Val)) fk = none from rfl, hN]
    simp
  | some k0 =>
    by_cases hk : k0 = fk
    · rw [show lastLookup [(k0, Val.s "Y")] fk = some (Val.s "Y") from by simp [lastLookup, hk]]
      simp [hk]
    · rw [show lastLookup [(k0, Val.s "Y")] fk = none from by simp [lastLookup, hk], hN]
      simp [hk]

theorem rget_parse_property_facing (url create_date : String) (doc : Doc)
    (fk : String) (hfk : fk ∈ FACING_KEYS) :
    rget (parse_property url create_date doc) fk =
      match doc.labelValue "方位" with
      | none => Val.null
      | some v =>
        if v = "" then Val.null
        else if lookupA JP_TO_EN_FACING (pyStrip v) = some fk then Val.s "Y"
        else Val.s "N" := by
  obtain ⟨hf1, hf2, hf3, hf4, hf5, hf6⟩ := facing_misc fk hfk
  rw [rget_final_at_entry url create_date doc fk _ _ _ ui_split_facing
    (facing_post_bound fk hfk) ⟨hf1, hf2, hf3⟩ hf6]
  unfold applyEntry
  cases hl : doc.labelValue "方位" with
  | none =>
    exact rget_pre_entry_null url create_date doc fk _ (facing_pre_bound fk hfk) hf4 hf5
  | some v =>
    by_cases hv : v = ""
    · simp only [hv, if_pos rfl]
      exact rget_pre_entry_null url create_date doc fk _ (facing_pre_bound fk hfk) hf4 hf5
    · simp only [if_neg hv]
      exact facing_entry_values v _ fk hfk

theorem filter_some_len_le_one (l : List String) (hl : l.Nodup) (o : Option String) :
    (l.filter (fun k => decide (o = some k))).length ≤ 1 := by
  induction l with
  | nil => simp
  | cons a rest ih =>
    rcases List.nodup_cons.1 hl with ⟨ha, hrest⟩
    by_cases h : o = some a
    · have hnil : rest.filter (fun k => decide (o = some k)) = [] := by
        rw [List.filter_eq_nil_iff]
        intro k hk
        simp only [decide_eq_true_eq]
        intro hc
        rw [h] at hc
        injection hc with hc
        exact ha (hc ▸ hk)
      simp [List.filter_cons, h, hnil]
      intro k hk hc
      subst hc
      exact ha hk
    · simp [List.filter_cons, h, ih hrest]

/-- C3: in every record produced by `parse_property`, at most one of
the eight facing keys holds the affirmative value "Y"; and if the
facing text is present and non-empty but matches no entry of
`JP_TO_EN_FACING`, all eight facing keys hold the negative value
"N". -/
theorem parse_property_facing_onehot (url create_date : String) (doc : Doc) :
    ((FACING_KEYS.filter
      (fun k => decide (rget (parse_property url create_date doc) k = Val.s "Y"))).length ≤ 1) ∧
    (∀ v, doc.labelValue "方位" = some v → v ≠ "" →
      lookupA JP_TO_EN_FACING (pyStrip v) = none →
      ∀ k ∈ FACING_KEYS, rget (parse_property url create_date doc) k = Val.s "N") := by
  constructor
  · cases hl : doc.labelValue "方位" with
    | none =>
      have hcongr : FACING_KEYS.filter
          (fun k => decide (rget (parse_property url create_date doc) k = Val.s "Y")) =
          FACING_KEYS.filter (fun _ => false) := by
        apply List.filter_congr
        intro k hk
        rw [rget_parse_property_facing url create_date doc k hk, hl]
        simp
      rw [hcongr]
      simp
    | some v =>
      by_cases hv : v = ""
      · have hcongr : FACING_KEYS.filter
            (fun k => decide (rget (parse_property url create_date doc) k = Val.s "Y")) =
            FACING_KEYS.filter (fun _ => false) := by
          apply List.filter_congr
          intro k hk
          rw [rget_parse_property_facing url create_date doc k hk, hl]
          simp [hv]
        rw [hcongr]
        simp
      · have hcongr : FACING_KEYS.filter
            (fun k => decide (rget (parse_property url create_date doc) k = Val.s "Y")) =
            FACING_KEYS.filter
              (fun k => decide (lookupA JP_TO_EN_FACING (pyStrip v) = some k)) := by
          apply List.filter_congr
          intro k hk
          rw [rget_parse_property_facing url create_date doc k hk, hl]
          simp only [if_neg hv]
          by_cases hc : lookupA JP_TO_EN_FACING (pyStrip v) = some k
          · simp [hc]
          · simp [hc]
        rw [hcongr]
        exact filter_some_len_le_one FACING_KEYS facing_keys_nodup _
  · intro v hlv hv hnone k hk
    rw [rget_parse_property_facing url create_date doc k hk, hlv]
    simp [hv, hnone]

/-- Witness for C3 at a concrete document whose facing text "abc"
matches no facing label: the count is at most one and a facing key is
negative. -/
theorem parse_property_facing_onehot_witness :
    ((FACING_KEYS.filter (fun k => decide (rget (parse_property "" ""
      ⟨fun l => if l = "方位" then some "abc" else none, []⟩) k = Val.s "Y"))).length ≤ 1) ∧
    rget (parse_property "" "" ⟨fun l => if l = "方位" then some "abc" else none, []⟩)
      "facing_north" = Val.s "N" :=
  ⟨(parse_property_facing_onehot "" "" _).1,
   (parse_property_facing_onehot "" "" _).2 "abc" (by decide) (by decide) (by decide)
     "facing_north" (by decide)⟩

/-! ### Claim C4: default features -/

set_option maxRecDepth 40000

/-- C4 counterexample: a document with no features text at all leaves
the Default Features key "aircon" null, not affirmative, so the claim's
"for every input document … regardless" universal fails; the override
only runs when the features label yields a non-empty value. -/
theorem default_features_counterexample :
    "aircon" ∈ DEFAULT_FEATURES ∧
    rget (parse_property "" "" ⟨fun _ => none, []⟩) "aircon" ≠ Val.s "Y" := by
  decide

theorem ui_split_features :
    UI_MAPPING = UI_MAPPING.take 21 ++ ("設備・条件", "features") :: [] := by
  decide

theorem default_feature_misc : ∀ k ∈ DEFAULT_FEATURES,
    k ≠ "months_guarantor" ∧ k ≠ "numeric_guarantor" ∧ k ≠ "months_agency" ∧
    k ∈ BASE_KEYS := by
  decide

theorem default_lastLookup : ∀ k ∈ DEFAULT_FEATURES,
    lastLookup (DEFAULT_FEATURES.map (fun key => (key, Val.s "Y"))) k =
      some (Val.s "Y") := by
  decide

theorem applyEntry_pair (doc : Doc) (d : Record) (jp out : String) :
    applyEntry doc d (jp, out) = match doc.labelValue jp with
      | none => d
      | some v => if v = "" then d else rsets d (pairsFor out v) := rfl

theorem pairsFor_features (v : String) :
    pairsFor "features" v =
      (FEATURES_MAPPING.map (fun p =>
        (p.2, Val.s (if ((pySplit '、' v).map pyStrip).contains p.1 then "Y" else "N")))) ++
      DEFAULT_FEATURES.map (fun key => (key, Val.s "Y")) := rfl

theorem features_default_value (v : String) (d : Record) (k : String)
    (hk : k ∈ DEFAULT_FEATURES) :
    rget (rsets d (pairsFor "features" v)) k = Val.s "Y" := by
  rw [pairsFor_features, rget_rsets_getD, lastLookup_append_or, default_lastLookup k hk]
  rfl

/-- C4 amended: whenever the document's features text is present and
non-empty, every key in the Default Features set is affirmative in the
output record, regardless of what feature tokens the features text
contains; with no features text those keys stay null. -/
theorem default_features_affirmative (url create_date : String) (doc : Doc)
    (v : String) (hv : doc.labelValue "設備・条件" = some v) (hne : v ≠ "") :
    ∀ k ∈ DEFAULT_FEATURES, rget (parse_property url create_date doc) k = Val.s "Y" := by
  intro k hk
  obtain ⟨hm1, hm2, hm3, hbase⟩ := default_feature_misc k hk
  rw [rget_final_at_entry url create_date doc k (UI_MAPPING.take 21) []
    ("設備・条件", "features") ui_split_features (by simp) ⟨hm1, hm2, hm3⟩ hbase]
  rw [applyEntry_pair, hv]
  simp only [if_neg hne]
  exact features_default_value v _ k hk

/-- Witness for C4 (amended) at a document whose features text is the
single token "畳", which is not a default feature's token. -/
theorem default_features_affirmative_witness :
    rget (parse_property "" ""
      ⟨fun l => if l = "設備・条件" then some "畳" else none, []⟩) "aircon" = Val.s "Y" :=
  default_features_affirmative "" "" _ "畳" rfl (by decide) "aircon" (by decide)

/-! ### Claim C5: the deposit and key-money composite splits -/

theorem pairsFor_deposit (v : String) :
    pairsFor "deposit/security_deposit" v =
      if (pySplit '/' v).length = 2 then
        [("months_security_deposit", Val.s (normPart ((pySplit '/' v).headD ""))),
         ("numeric_security_deposit", Val.s (normPart (((pySplit '/' v).get? 1).getD "")))]
      else [] := rfl

theorem pairsFor_key_money (v : String) :
    pairsFor "key_money/amortization" v =
      if (pySplit '/' v).length = 2 then
        [("months_key", Val.s (normPart ((pySplit '/' v).headD ""))),
         ("numeric_key", Val.s (normPart (((pySplit '/' v).get? 1).getD "")))]
      else [] := rfl

/-- C5: splitting the raw value of the deposit/security-deposit or
key-money/amortization composite on '/' into exactly two parts assigns
the stripped parts left-to-right to the two sub-keys, a part whose
stripped form is the placeholder dash becoming "0" (`normPart`); when
the split does not yield exactly two parts neither branch writes
anything. -/
theorem composite_split_behavior (d : Record) (v : String) :
    (∀ p0 p1, pySplit '/' v = [p0, p1] →
      rget (rsets d (pairsFor "deposit/security_deposit" v))
        "months_security_deposit" = Val.s (normPart p0) ∧
      rget (rsets d (pairsFor "deposit/security_deposit" v))
        "numeric_security_deposit" = Val.s (normPart p1) ∧
      rget (rsets d (pairsFor "key_money/amortization" v))
        "months_key" = Val.s (normPart p0) ∧
      rget (rsets d (pairsFor "key_money/amortization" v))
        "numeric_key" = Val.s (normPart p1)) ∧
    ((pySplit '/' v).length ≠ 2 →
      rsets d (pairsFor "deposit/security_deposit" v) = d ∧
      rsets d (pairsFor "key_money/amortization" v) = d) := by
  constructor
  · intro p0 p1 hsplit
    have hlen : (pySplit '/' v).length = 2 := by rw [hsplit]; rfl
    have h0 : (pySplit '/' v).headD "" = p0 := by rw [hsplit]; rfl
    have h1 : ((pySplit '/' v).get? 1).getD "" = p1 := by rw [hsplit]; rfl
    rw [pairsFor_deposit, pairsFor_key_money, if_pos hlen, if_pos hlen, h0, h1]
    refine ⟨?_, ?_, ?_, ?_⟩ <;>
      (rw [rget_rsets_getD]; simp [lastLookup])
  · intro hlen
    rw [pairsFor_deposit, pairsFor_key_money, if_neg hlen, if_neg hlen]
    exact ⟨rfl, rfl⟩

/-- Witness for C5 at the claim's example inputs: "2/300,000" and the
dash/dash placeholder pair. -/
theorem composite_split_behavior_witness :
    rget (rsets [] (pairsFor "deposit/security_deposit" "2/300,000"))
      "months_security_deposit" = Val.s "2" ∧
    rget (rsets [] (pairsFor "deposit/security_deposit" "2/300,000"))
      "numeric_security_deposit" = Val.s "300,000" ∧
    rget (rsets [] (pairsFor "deposit/security_deposit" "-/-"))
      "months_security_deposit" = Val.s "0" ∧
    rget (rsets [] (pairsFor "key_money/amortization" "-/-"))
      "numeric_key" = Val.s "0" ∧
    rsets [] (pairsFor "deposit/security_deposit" "1/2/3") = [] := by
  have h1 := (composite_split_behavior [] "2/300,000").1 "2" "300,000" (by decide)
  have h2 := (composite_split_behavior [] "-/-").1 "-" "-" (by decide)
  have h3 := (composite_split_behavior [] "1/2/3").2 (by decide)
  exact ⟨h1.1.trans (by decide), h1.2.1.trans (by decide),
    h2.1.trans (by decide), h2.2.2.2.trans (by decide), h3.1⟩

/-! ### The monthly rent through the pipeline -/

theorem ui_split_rent :
    UI_MAPPING = UI_MAPPING.take 10 ++ ("賃料", "monthly_rent") :: UI_MAPPING.drop 11 := by
  decide

theorem rent_post_bound : ∀ p ∈ UI_MAPPING.drop 11, "monthly_rent" ∉ entryKeyBound p.2 := by
  decide

theorem rent_label_unique : ∀ p ∈ UI_MAPPING, p.2 = "monthly_rent" → p.1 = "賃料" := by
  decide

theorem rent_not_bound : ∀ p ∈ UI_MAPPING, p.2 ≠ "monthly_rent" →
    "monthly_rent" ∉ entryKeyBound p.2 := by
  decide

theorem fee_keys_not_bound : ∀ p ∈ UI_MAPPING,
    "months_guarantor" ∉ entryKeyBound p.2 ∧
    "numeric_guarantor" ∉ entryKeyBound p.2 ∧
    "months_agency" ∉ entryKeyBound p.2 := by
  decide

theorem pairsFor_rent (v : String) :
    pairsFor "monthly_rent" v = [("monthly_rent", Val.s (rentStored v))] := rfl

theorem rget_afterMapping_monthly_rent (url create_date : String) (doc : Doc)
    (v : String) (hv : doc.labelValue "賃料" = some v) (hne : v ≠ "") :
    rget (afterMapping url create_date doc) "monthly_rent" = Val.s (rentStored v) := by
  unfold afterMapping
  rw [ui_split_rent, List.foldl_append, List.foldl_cons,
    rget_foldl_entries doc (UI_MAPPING.drop 11) _ _ rent_post_bound,
    applyEntry_pair, hv]
  simp only [if_neg hne]
  rw [pairsFor_rent, rget_rsets_getD]
  simp [lastLookup]

theorem rget_afterMapping_monthly_rent_null (url create_date : String) (doc : Doc)
    (hl : truthyS (doc.labelValue "賃料") = false) :
    rget (afterMapping url create_date doc) "monthly_rent" = Val.null := by
  unfold afterMapping
  rw [rget_foldl_of_pres doc _ _ _ ?_, rget_initRecord _ _ _ (by decide) (by decide)]
  intro p hp e
  by_cases hrent : p.2 = "monthly_rent"
  · have hlabel : p.1 = "賃料" := rent_label_unique p hp hrent
    rw [applyEntry_skip doc e p (by rw [hlabel]; exact hl)]
  · exact rget_applyEntry_of_not_mem doc e p _ (rent_not_bound p hp hrent)

theorem fee_keys_null_afterMapping (url create_date : String) (doc : Doc) :
    rget (afterMapping url create_date doc) "months_guarantor" = Val.null ∧
    rget (afterMapping url create_date doc) "numeric_guarantor" = Val.null ∧
    rget (afterMapping url create_date doc) "months_agency" = Val.null := by
  unfold afterMapping
  refine ⟨?_, ?_, ?_⟩ <;>
    rw [rget_foldl_entries doc _ _ _ (fun p hp => ?_),
      rget_initRecord _ _ _ (by decide) (by decide)]
  · exact (fee_keys_not_bound p hp).1
  · exact (fee_keys_not_bound p hp).2.1
  · exact (fee_keys_not_bound p hp).2.2

theorem parse_property_fee_formula (url create_date : String) (doc : Doc) :
    rget (parse_property url create_date doc) "months_guarantor" =
      Val.f ((roundHalfEven (computeRent (valStr
        (rget (afterMapping url create_date doc) "monthly_rent")) * 0.5) : ℤ) : ℚ) ∧
    rget (parse_property url create_date doc) "numeric_guarantor" =
      Val.f ((roundHalfEven (computeRent (valStr
        (rget (afterMapping url create_date doc) "monthly_rent")) * 1.0) : ℤ) : ℚ) ∧
    rget (parse_property url create_date doc) "months_agency" =
      Val.f ((roundHalfEven (computeRent (valStr
        (rget (afterMapping url create_date doc) "monthly_rent")) * 1.1) : ℤ) : ℚ) := by
  have h := fee_keys_null_afterMapping url create_date doc
  have hset := rget_applyFees_set (afterMapping url create_date doc)
    (by rw [h.1]; rfl) (by rw [h.2.1]; rfl) (by rw [h.2.2]; rfl)
  rw [parse_property_eq]
  exact ⟨(rget_parse_images_of_base _ _ _ (by decide)).trans hset.1,
    (rget_parse_images_of_base _ _ _ (by decide)).trans hset.2.1,
    (rget_parse_images_of_base _ _ _ (by decide)).trans hset.2.2⟩

theorem computeRent_some (s : String) (h1 : s ≠ "") (h2 : s ≠ "-") :
    computeRent (some s) = match pyFloat (rentNormalized s) with
      | some q => q * 10000
      | none => 0 := by
  unfold computeRent
  show (if s = "" ∨ s = "-" then (0 : ℚ) else match pyFloat (rentNormalized s) with
    | some q => q * 10000
    | none => 0) = _
  rw [if_neg (by simp [h1, h2])]

theorem computeRent_eight_five : computeRent (some "8.5") = 85000 := by
  rw [computeRent_some "8.5" (by decide) (by decide)]
  rw [show rentNormalized "8.5" = "8.5" from by decide]
  have hp : pyFloat "8.5" = some (FloatLit.val ⟨false, 8, 5, 1, 0⟩) := by
    unfold pyFloat
    rw [show parseFloatLit "8.5" = some ⟨false, 8, 5, 1, 0⟩ from by decide]
    rfl
  rw [hp]
  show FloatLit.val ⟨false, 8, 5, 1, 0⟩ * 10000 = 85000
  unfold FloatLit.val
  norm_num

theorem computeRent_ten : computeRent (some "10") = 100000 := by
  rw [computeRent_some "10" (by decide) (by decide)]
  rw [show rentNormalized "10" = "10" from by decide]
  have hp : pyFloat "10" = some (FloatLit.val ⟨false, 10, 0, 0, 0⟩) := by
    unfold pyFloat
    rw [show parseFloatLit "10" = some ⟨false, 10, 0, 0, 0⟩ from by decide]
    rfl
  rw [hp]
  show FloatLit.val ⟨false, 10, 0, 0, 0⟩ * 10000 = 100000
  unfold FloatLit.val
  norm_num

/-! ### Claim C6: rent range truncation -/

theorem rget_final_monthly_rent (url create_date : String) (doc : Doc) (v : String)
    (hv : doc.labelValue "賃料" = some v) (hne : v ≠ "") :
    rget (parse_property url create_date doc) "monthly_rent" = Val.s (rentStored v) := by
  rw [parse_property_eq, rget_parse_images_of_base _ _ _ (by decide),
    rget_applyFees_of_ne _ _ (by decide) (by decide) (by decide),
    rget_afterMapping_monthly_rent url create_date doc v hv hne]

/-- C6 counterexample: for the rent text "8.5〜9.2万円" the value
stored under monthly_rent is "8.5" — the part before the wave dash,
which carries no currency suffix — not "8.5万円" as the claim
asserts. -/
theorem monthly_rent_range_counterexample :
    rget (parse_property "" ""
      ⟨fun l => if l = "賃料" then some "8.5〜9.2万円" else none, []⟩)
      "monthly_rent" = Val.s "8.5" ∧ Val.s "8.5" ≠ Val.s "8.5万円" := by
  refine ⟨?_, by decide⟩
  rw [rget_final_monthly_rent "" "" _ "8.5〜9.2万円" rfl (by decide)]
  decide

/-- C6 amended: for a monthly-rent raw value containing the wave dash,
only the stripped portion before the separator is stored as
monthly_rent (a currency suffix survives only if it appears before the
separator); in particular "8.5〜9.2万円" is stored as "8.5" and the
subsequent numeric derivation still parses it to the yen value 85000,
as witnessed by the derived numeric_guarantor = round(rent * 1.0). -/
theorem monthly_rent_range_truncation (url create_date : String) (doc : Doc)
    (v : String) (hv : doc.labelValue "賃料" = some v) (hne : v ≠ "")
    (hr : pyContains v "〜" = true) :
    rget (parse_property url create_date doc) "monthly_rent" =
      Val.s (pyStrip ((pySplit '〜' v).headD "")) ∧
    (pyStrip ((pySplit '〜' v).headD "") = "8.5" →
      rget (parse_property url create_date doc) "numeric_guarantor" = Val.f 85000) := by
  have hst : rentStored v = pyStrip ((pySplit '〜' v).headD "") := by
    unfold rentStored
    rw [if_pos hr]
  constructor
  · rw [rget_final_monthly_rent url create_date doc v hv hne, hst]
  · intro h85
    have hfee := (parse_property_fee_formula url create_date doc).2.1
    rw [rget_afterMapping_monthly_rent url create_date doc v hv hne] at hfee
    rw [hfee, show valStr (Val.s (rentStored v)) = some (rentStored v) from rfl,
      hst, h85, computeRent_eight_five]
    have e : (85000 : ℚ) * 1.0 = ((85000 : ℤ) : ℚ) := by norm_num
    rw [e, roundHalfEven_intCast]
    exact congrArg Val.f (by norm_num)

/-- Witness for C6 (amended) at the claim's example rent text. -/
theorem monthly_rent_range_truncation_witness :
    rget (parse_property "" ""
      ⟨fun l => if l = "賃料" then some "8.5〜9.2万円" else none, []⟩)
      "numeric_guarantor" = Val.f 85000 :=
  (monthly_rent_range_truncation "" "" _ "8.5〜9.2万円" rfl (by decide) (by decide)).2
    (by decide)

/-! ### Claim C7: the derived fee formulas -/

/-- C7: when the guarantor/agency fields are not already set (Python
truthiness), the derived-value calculator sets months_guarantor to
round(rent * 0.5), numeric_guarantor to round(rent * 1.0) and
months_agency to round(rent * 1.1); in particular a parsed rent of
100000 yields 50000, 100000 and 110000. -/
theorem derived_fee_formulas (d : Record)
    (h1 : falsyV (rget d "months_guarantor") = true)
    (h2 : falsyV (rget d "numeric_guarantor") = true)
    (h3 : falsyV (rget d "months_agency") = true) :
    (rget (applyFees d) "months_guarantor" =
      Val.f ((roundHalfEven (computeRent (valStr (rget d "monthly_rent")) * 0.5) : ℤ) : ℚ)) ∧
    (rget (applyFees d) "numeric_guarantor" =
      Val.f ((roundHalfEven (computeRent (valStr (rget d "monthly_rent")) * 1.0) : ℤ) : ℚ)) ∧
    (rget (applyFees d) "months_agency" =
      Val.f ((roundHalfEven (computeRent (valStr (rget d "monthly_rent")) * 1.1) : ℤ) : ℚ)) ∧
    (computeRent (valStr (rget d "monthly_rent")) = 100000 →
      rget (applyFees d) "months_guarantor" = Val.f 50000 ∧
      rget (applyFees d) "numeric_guarantor" = Val.f 100000 ∧
      rget (applyFees d) "months_agency" = Val.f 110000) := by
  have hset := rget_applyFees_set d h1 h2 h3
  refine ⟨hset.1, hset.2.1, hset.2.2, ?_⟩
  intro h100
  rw [hset.1, hset.2.1, hset.2.2, h100]
  have e1 : (100000 : ℚ) * 0.5 = ((50000 : ℤ) : ℚ) := by norm_num
  have e2 : (100000 : ℚ) * 1.0 = ((100000 : ℤ) : ℚ) := by norm_num
  have e3 : (100000 : ℚ) * 1.1 = ((110000 : ℤ) : ℚ) := by norm_num
  rw [e1, e2, e3, roundHalfEven_intCast, roundHalfEven_intCast, roundHalfEven_intCast]
  exact ⟨congrArg Val.f (by norm_num), congrArg Val.f (by norm_num),
    congrArg Val.f (by norm_num)⟩

/-- Witness for C7 at a record whose rent text "10" parses to 100000
yen and whose fee fields are unset. -/
theorem derived_fee_formulas_witness :
    rget (applyFees [("monthly_rent", Val.s "10")]) "months_guarantor" = Val.f 50000 ∧
    rget (applyFees [("monthly_rent", Val.s "10")]) "numeric_guarantor" = Val.f 100000 ∧
    rget (applyFees [("monthly_rent", Val.s "10")]) "months_agency" = Val.f 110000 :=
  (derived_fee_formulas [("monthly_rent", Val.s "10")]
    (by decide) (by decide) (by decide)).2.2.2
    (by rw [show valStr (rget [("monthly_rent", Val.s "10")] "monthly_rent") =
          some "10" from rfl]
        exact computeRent_ten)

/-! ### Claim C9: the rent derivation never raises and degrades to zero -/

/-- The failure cases of the numeric rent derivation: monthly_rent
absent, empty, the placeholder dash, or a string whose normalized form
`float()` rejects. -/
def rentFails (v : Val) : Prop :=
  v = Val.null ∨ v = Val.s "" ∨ v = Val.s "-" ∨
    ∃ s, v = Val.s s ∧ pyFloat (rentNormalized s) = none

theorem computeRent_fails (v : Val) (hf : rentFails v) :
    computeRent (valStr v) = 0 := by
  rcases hf with h | h | h | ⟨s, hs, hp⟩
  · rw [h]; rfl
  · rw [h]; rfl
  · rw [h]; rfl
  · rw [hs]
    show computeRent (some s) = 0
    by_cases h1 : s = ""
    · rw [h1]; rfl
    · by_cases h2 : s = "-"
      · rw [h2]; rfl
      · rw [computeRent_some s h1 h2, hp]

/-- C9: the numeric rent derivation is a total function (the embedding
returns a value on every input, mirroring the `try`/`except` that
swallows `ValueError`); whenever monthly_rent is absent, empty, the
placeholder dash, or unparsable after stripping the currency suffix
and thousands separators, the parsed rent is 0 and the three derived
fee fields are computed from 0. -/
theorem rent_derivation_degrades_to_zero (d : Record)
    (hf : rentFails (rget d "monthly_rent"))
    (h1 : falsyV (rget d "months_guarantor") = true)
    (h2 : falsyV (rget d "numeric_guarantor") = true)
    (h3 : falsyV (rget d "months_agency") = true) :
    computeRent (valStr (rget d "monthly_rent")) = 0 ∧
    rget (applyFees d) "months_guarantor" = Val.f 0 ∧
    rget (applyFees d) "numeric_guarantor" = Val.f 0 ∧
    rget (applyFees d) "months_agency" = Val.f 0 := by
  have h0 := computeRent_fails _ hf
  have hset := rget_applyFees_set d h1 h2 h3
  rw [h0] at hset
  have e1 : (0 : ℚ) * 0.5 = ((0 : ℤ) : ℚ) := by norm_num
  have e2 : (0 : ℚ) * 1.0 = ((0 : ℤ) : ℚ) := by norm_num
  have e3 : (0 : ℚ) * 1.1 = ((0 : ℤ) : ℚ) := by norm_num
  rw [e1, roundHalfEven_intCast] at hset
  rw [e2, roundHalfEven_intCast] at hset
  rw [e3, roundHalfEven_intCast] at hset
  refine ⟨h0, ?_, ?_, ?_⟩
  · rw [hset.1]; exact congrArg Val.f (by norm_num)
  · rw [hset.2.1]; exact congrArg Val.f (by norm_num)
  · rw [hset.2.2]; exact congrArg Val.f (by norm_num)

/-- Witness for C9 at a record whose rent text "abc" is unparsable. -/
theorem rent_derivation_degrades_to_zero_witness :
    computeRent (valStr (rget [("monthly_rent", Val.s "abc")] "monthly_rent")) = 0 ∧
    rget (applyFees [("monthly_rent", Val.s "abc")]) "months_guarantor" = Val.f 0 :=
  have h := rent_derivation_degrades_to_zero [("monthly_rent", Val.s "abc")]
    (Or.inr (Or.inr (Or.inr ⟨"abc", rfl, by decide⟩))) (by decide) (by decide) (by decide)
  ⟨h.1, h.2.1⟩

/-! ### Claim C10: the fee fields are always non-null numerics -/

/-- C10: in every record produced by `parse_property` the three
derived fee fields hold numeric values (never null); and when the rent
label is absent or empty they are all 0 rather than null, unlike other
missing fields. -/
theorem parse_property_fee_nonnull (url create_date : String) (doc : Doc) :
    (∃ a : ℤ, rget (parse_property url create_date doc) "months_guarantor" =
      Val.f (a : ℚ)) ∧
    (∃ b : ℤ, rget (parse_property url create_date doc) "numeric_guarantor" =
      Val.f (b : ℚ)) ∧
    (∃ c : ℤ, rget (parse_property url create_date doc) "months_agency" =
      Val.f (c : ℚ)) ∧
    (truthyS (doc.labelValue "賃料") = false →
      rget (parse_property url create_date doc) "months_guarantor" = Val.f 0 ∧
      rget (parse_property url create_date doc) "numeric_guarantor" = Val.f 0 ∧
      rget (parse_property url create_date doc) "months_agency" = Val.f 0) := by
  have hfee := parse_property_fee_formula url create_date doc
  refine ⟨⟨_, hfee.1⟩, ⟨_, hfee.2.1⟩, ⟨_, hfee.2.2⟩, ?_⟩
  intro hl
  have hnull := rget_afterMapping_monthly_rent_null url create_date doc hl
  rw [hnull] at hfee
  rw [show computeRent (valStr Val.null) = 0 from rfl] at hfee
  have e1 : (0 : ℚ) * 0.5 = ((0 : ℤ) : ℚ) := by norm_num
  have e2 : (0 : ℚ) * 1.0 = ((0 : ℤ) : ℚ) := by norm_num
  have e3 : (0 : ℚ) * 1.1 = ((0 : ℤ) : ℚ) := by norm_num
  rw [e1, roundHalfEven_intCast] at hfee
  rw [e2, roundHalfEven_intCast] at hfee
  rw [e3, roundHalfEven_intCast] at hfee
  refine ⟨?_, ?_, ?_⟩
  · rw [hfee.1]; exact congrArg Val.f (by norm_num)
  · rw [hfee.2.1]; exact congrArg Val.f (by norm_num)
  · rw [hfee.2.2]; exact congrArg Val.f (by norm_num)

/-- Witness for C10 at a document with no rent label at all. -/
theorem parse_property_fee_nonnull_witness :
    rget (parse_property "" "" ⟨fun _ => none, []⟩) "months_guarantor" = Val.f 0 ∧
    rget (parse_property "" "" ⟨fun _ => none, []⟩) "months_agency" = Val.f 0 :=
  have h := (parse_property_fee_nonnull "" "" ⟨fun _ => none, []⟩).2.2.2 rfl
  ⟨h.1, h.2.2⟩

/-! ### Claim C8: image slot filling -/

/-- C8: the image collector fills slots 1..k in document order with
the first k valid images — elements with no truthy URL source consume
no slot — never collects past slot 16, and sets both the category and
the URL of every slot after the last collected one (up to 16) to
null. -/
theorem image_collector_slots (d : Record) (imgs : List Img) :
    (∀ i im, (validImgs imgs).get? i = some im → i + 1 ≤ 16 →
      rget (parse_images imgs d 16) (catKey (i + 1)) = Val.s (imgCategory im) ∧
      rget (parse_images imgs d 16) (urlKey (i + 1)) =
        Val.s (resolveUrl ((imgRawUrl im).getD ""))) ∧
    (∀ j, (validImgs imgs).length < j → j ≤ 16 →
      rget (parse_images imgs d 16) (catKey j) = Val.null ∧
      rget (parse_images imgs d 16) (urlKey j) = Val.null) :=
  ⟨fun i im hget hle => parse_images_pop imgs d i im hget hle,
   fun j hj1 hj16 => parse_images_null imgs d j hj1 hj16⟩

/-- A concrete image list: three valid image elements (one with an
empty `src` falling through to `data-src`, one root-relative URL) and
one element with no URL source at all. -/
def imgsW : List Img := [⟨some "/a.jpg", none, none, some "front"⟩,
  ⟨none, none, none, some "skip"⟩, ⟨some "", some "b.jpg", none, none⟩,
  ⟨none, none, some "/c.jpg", some "c"⟩]

/-- Witness for C8: with three valid images slots 1-3 are populated
(the sourceless element consumes no slot) and slots 4 and 16 are
null. -/
theorem image_collector_slots_witness :
    rget (parse_images imgsW [] 16) (catKey 1) = Val.s "front" ∧
    rget (parse_images imgsW [] 16) (urlKey 2) = Val.s "b.jpg" ∧
    rget (parse_images imgsW [] 16) (urlKey 3) =
      Val.s "https://rent.tokyu-housing-lease.co.jp/c.jpg" ∧
    rget (parse_images imgsW [] 16) (catKey 4) = Val.null ∧
    rget (parse_images imgsW [] 16) (urlKey 16) = Val.null := by
  have h := image_collector_slots [] imgsW
  refine ⟨?_, ?_, ?_, ?_, ?_⟩
  · exact ((h.1 0 ⟨some "/a.jpg", none, none, some "front"⟩
      (by decide) (by decide)).1).trans (by decide)
  · exact ((h.1 1 ⟨some "", some "b.jpg", none, none⟩
      (by decide) (by decide)).2).trans (by decide)
  · exact ((h.1 2 ⟨none, none, some "/c.jpg", some "c"⟩
      (by decide) (by decide)).2).trans (by decide)
  · exact (h.2 4 (by decide) (by decide)).1
  · exact (h.2 16 (by decide) (by decide)).2
